import Mathlib

/-!
Verification of the grayscale image buffer engine (image_u8.c).

The C source is shallowly embedded: an image is a record of width, height,
stride and a flat byte array (bytes modelled as natural numbers; theorems
that need the uint8 range carry an explicit bound).  Imperative loops that
write into a buffer are modelled as a fold of point writes (`setWrites`)
over the list of (index, value) pairs the loop performs, in loop order.
Machine arithmetic is explicit: 32-bit accumulators reduce modulo 2^32 and
stores into byte arrays reduce modulo 256.
-/

/-- Model of the struct image_u8 (image_u8.h): int32 width, height, stride
    and a byte array of length stride*height.  Bytes are Nat. -/
structure image_u8 where
  width : Nat
  height : Nat
  stride : Nat
  buf : List Nat
  deriving Repr, DecidableEq

/-- Model of the struct image_u8_lut used by image_u8_fill_line_max:
    a scale factor mapping squared distance to an index, a length, and
    a table of intensity bytes. -/
structure image_u8_lut where
  scale : ℚ
  nvalues : Nat
  values : List Nat
  deriving Repr, DecidableEq

/-- Truncation of a rational toward zero, the semantics of a C cast from a
    floating value to int. -/
def qtrunc (q : ℚ) : Int :=
  q.num / (q.den : Int)

/-- Write one byte into a buffer at a flat array index (a C `buf[idx] = v`). -/
def setPx (im : image_u8) (idx v : Nat) : image_u8 :=
  { im with buf := im.buf.set idx v }

/-- Replay a list of (index, value) stores into a byte array, in order.
    This is the effect of an imperative loop whose iterations each perform
    one store, listed in iteration order. -/
def setWrites (ws : List (Nat × Nat)) (b : List Nat) : List Nat :=
  ws.foldl (fun r p => r.set p.1 p.2) b

/-- Concatenation of a list of write lists, used to flatten nested loops. -/
def flatList {α : Type} (ls : List (List α)) : List α :=
  ls.foldr (fun l acc => l ++ acc) []

theorem mem_flatList {α : Type} {x : α} {ls : List (List α)} :
    x ∈ flatList ls ↔ ∃ l ∈ ls, x ∈ l := by
  induction ls with
  | nil => simp [flatList]
  | cons l t ih => simp [flatList] at ih ⊢; simp [ih]

theorem length_setWrites (ws : List (Nat × Nat)) (b : List Nat) :
    (setWrites ws b).length = b.length := by
  induction ws generalizing b with
  | nil => rfl
  | cons p t ih => simp [setWrites, List.foldl_cons] at ih ⊢; rw [ih, List.length_set]

theorem getD_set_self (l : List Nat) (i v : Nat) (h : i < l.length) :
    (l.set i v).getD i 0 = v := by
  induction l generalizing i with
  | nil => simp at h
  | cons a t ih =>
    cases i with
    | zero => simp
    | succ n => simpa using ih n (by simpa using h)

theorem getD_set_other (l : List Nat) (i j v : Nat) (h : i ≠ j) :
    (l.set i v).getD j 0 = l.getD j 0 := by
  induction l generalizing i j with
  | nil => simp
  | cons a t ih =>
    cases i with
    | zero => cases j with
      | zero => exact absurd rfl h
      | succ m => simp
    | succ n => cases j with
      | zero => simp
      | succ m => simpa using ih n m (by omega)

theorem getD_setWrites_notMem (ws : List (Nat × Nat)) (b : List Nat) (i : Nat)
    (h : ∀ p ∈ ws, p.1 ≠ i) :
    (setWrites ws b).getD i 0 = b.getD i 0 := by
  induction ws generalizing b with
  | nil => rfl
  | cons p t ih =>
    have h1 : p.1 ≠ i := h p (by simp)
    have h2 : ∀ q ∈ t, q.1 ≠ i := fun q hq => h q (by simp [hq])
    calc (setWrites (p :: t) b).getD i 0
        = (setWrites t (b.set p.1 p.2)).getD i 0 := rfl
      _ = (b.set p.1 p.2).getD i 0 := ih (b.set p.1 p.2) h2
      _ = b.getD i 0 := getD_set_other b p.1 i p.2 h1

/-- Last-write-wins collapses to a single value when every store hitting an
    index stores the same value: the final buffer holds that value there. -/
theorem getD_setWrites_unique (ws : List (Nat × Nat)) (b : List Nat) (i v : Nat)
    (hm : (i, v) ∈ ws) (hi : i < b.length)
    (hu : ∀ p ∈ ws, p.1 = i → p.2 = v) :
    (setWrites ws b).getD i 0 = v := by
  induction ws generalizing b with
  | nil => simp at hm
  | cons p t ih =>
    by_cases ht : ∃ w, (i, w) ∈ t
    · obtain ⟨w, hw⟩ := ht
      have hwv : w = v := hu (i, w) (by simp [hw]) rfl
      subst hwv
      exact ih (b.set p.1 p.2) hw (by rw [List.length_set]; exact hi)
        (fun q hq => hu q (by simp [hq]))
    · have hp : p = (i, v) := by
        rcases List.mem_cons.mp hm with h | h
        · exact h.symm
        · exact absurd ⟨v, h⟩ ht
      subst hp
      have hnone : ∀ q ∈ t, q.1 ≠ i := by
        intro q hq hqi
        refine ht ⟨q.2, ?_⟩
        rw [← hqi, Prod.mk.eta]
        exact hq
      calc (setWrites ((i, v) :: t) b).getD i 0
          = (setWrites t (b.set i v)).getD i 0 := rfl
        _ = (b.set i v).getD i 0 := getD_setWrites_notMem t _ i hnone
        _ = v := getD_set_self b i v hi

/-- Uniqueness of the Euclidean decomposition of a flat row-major index. -/
theorem euclid_inj {s y1 x1 y2 x2 : Nat} (hx1 : x1 < s) (hx2 : x2 < s)
    (h : s * y1 + x1 = s * y2 + x2) : y1 = y2 ∧ x1 = x2 := by
  have hs : 0 < s := by omega
  have hx : x1 = x2 := by
    have e1 : (s * y1 + x1) % s = x1 % s := by
      simpa using Nat.mul_add_mod s y1 x1
    have e2 : (s * y2 + x2) % s = x2 % s := by
      simpa using Nat.mul_add_mod s y2 x2
    rw [h, e2] at e1
    rw [Nat.mod_eq_of_lt hx2, Nat.mod_eq_of_lt hx1] at e1
    exact e1.symm
  have hy : y1 = y2 := by
    have d1 : (s * y1 + x1) / s = y1 := by
      rw [Nat.mul_add_div hs, Nat.div_eq_of_lt hx1]; omega
    have d2 : (s * y2 + x2) / s = y2 := by
      rw [Nat.mul_add_div hs, Nat.div_eq_of_lt hx2]; omega
    rw [← d1, h, d2]
  exact ⟨hy, hx⟩

/-- A row-major pixel index lies inside the array of a buffer whose row
    count bounds y and whose stride bounds x. -/
theorem rowcol_lt {y h x s : Nat} (hy : y < h) (hx : x < s) :
    y * s + x < h * s := by
  calc y * s + x < y * s + s := by omega
    _ = (y + 1) * s := by ring
    _ ≤ h * s := Nat.mul_le_mul_right s hy

----------------------------------------------------------------
-- Buffer Manager (image_u8.c lines 48-95)
----------------------------------------------------------------

/-- image_u8_create_stride (lines 48-58): calloc a zeroed byte array of
    height*stride bytes and record the three dimensions. -/
def image_u8_create_stride (width height stride : Nat) : image_u8 :=
  { width := width, height := height, stride := stride
    buf := List.replicate (height * stride) 0 }

/-- Stride computation of image_u8_create_alignment (lines 67-70):
    start from width and round up to the next multiple of alignment. -/
def alignedStride (width alignment : Nat) : Nat :=
  if width % alignment ≠ 0 then width + (alignment - width % alignment) else width

/-- image_u8_create_alignment (lines 65-73). -/
def image_u8_create_alignment (width height alignment : Nat) : image_u8 :=
  image_u8_create_stride width height (alignedStride width alignment)

/-- image_u8_create (lines 60-63): default alignment 96. -/
def image_u8_create (width height : Nat) : image_u8 :=
  image_u8_create_alignment width height 96

theorem alignedStride_mod (width alignment : Nat) (ha : 0 < alignment) :
    alignedStride width alignment % alignment = 0 := by
  unfold alignedStride
  by_cases h : width % alignment = 0
  · simp [h]
  · simp only [h, ne_eq, not_false_iff, if_true]
    have hlt : width % alignment < alignment := Nat.mod_lt width ha
    have hdm := Nat.div_add_mod width alignment
    have heq : width + (alignment - width % alignment)
        = alignment * (width / alignment + 1) := by
      have : alignment * (width / alignment + 1)
          = alignment * (width / alignment) + alignment := by ring
      omega
    rw [heq]
    exact Nat.mul_mod_right alignment _

theorem alignedStride_ge (width alignment : Nat) :
    width ≤ alignedStride width alignment := by
  unfold alignedStride
  by_cases h : width % alignment = 0
  · simp [h]
  · simp only [h, ne_eq, not_false_iff, if_true]
    omega

theorem alignedStride_min (width alignment m : Nat) (ha : 0 < alignment)
    (hm : m % alignment = 0) (hw : width ≤ m) :
    alignedStride width alignment ≤ m := by
  unfold alignedStride
  by_cases h : width % alignment = 0
  · simp [h]; omega
  · simp only [h, ne_eq, not_false_iff, if_true]
    have h1 := Nat.div_add_mod width alignment
    have h2 := Nat.div_add_mod m alignment
    have hlt : width % alignment < alignment := Nat.mod_lt width ha
    -- m = alignment * (m / alignment), and width / alignment < m / alignment
    have hq : width / alignment < m / alignment := by
      by_contra hc
      push_neg at hc
      have : alignment * (m / alignment) ≤ alignment * (width / alignment) :=
        Nat.mul_le_mul_left alignment hc
      omega
    have : alignment * (width / alignment + 1) ≤ alignment * (m / alignment) :=
      Nat.mul_le_mul_left alignment hq
    have hexp : alignment * (width / alignment + 1)
        = alignment * (width / alignment) + alignment := by ring
    omega

/-- C3: image_u8_create_alignment returns a Buffer whose stride is the
    smallest multiple of alignment that is at least width, whose backing
    array has length stride*height, and whose content is entirely zero;
    image_u8_create behaves identically with the fixed default alignment 96. -/
theorem create_alignment_spec (width height alignment : Nat) (ha : 0 < alignment) :
    (image_u8_create_alignment width height alignment).stride % alignment = 0 ∧
    width ≤ (image_u8_create_alignment width height alignment).stride ∧
    (∀ m, m % alignment = 0 → width ≤ m →
      (image_u8_create_alignment width height alignment).stride ≤ m) ∧
    (image_u8_create_alignment width height alignment).buf.length =
      (image_u8_create_alignment width height alignment).stride *
        (image_u8_create_alignment width height alignment).height ∧
    (∀ v ∈ (image_u8_create_alignment width height alignment).buf, v = 0) ∧
    image_u8_create width height = image_u8_create_alignment width height 96 := by
  refine ⟨alignedStride_mod width alignment ha, alignedStride_ge width alignment,
    fun m hm hw => alignedStride_min width alignment m ha hm hw, ?_, ?_, rfl⟩
  · simp [image_u8_create_alignment, image_u8_create_stride, Nat.mul_comm]
  · intro v hv
    simpa using List.eq_of_mem_replicate hv

/-- Witness for create_alignment_spec at width 5, height 2, alignment 4:
    the stride is 8, the smallest multiple of 4 at least 5. -/
theorem create_alignment_spec_witness :
    (0 < 4 ∧ (image_u8_create_alignment 5 2 4).stride = 8) ∧
    (image_u8_create_alignment 5 2 4).buf.length = 16 := by
  have h := create_alignment_spec 5 2 4 (by decide)
  exact ⟨⟨by decide, by decide⟩, by decide⟩

----------------------------------------------------------------
-- image_u8_darken (image_u8.c lines 294-301)
----------------------------------------------------------------

/-- Write list of image_u8_darken: for each row y and each column x below
    width, the byte at stride*y+x is replaced by its half (integer
    division).  The reads can be taken from the pre-call buffer because the
    loop visits strictly increasing indices (width never exceeds stride for
    a well-formed buffer), so no iteration reads a cell already written. -/
def darkenWrites (im : image_u8) : List (Nat × Nat) :=
  flatList ((List.range im.height).map fun y =>
    (List.range im.width).map fun x =>
      (im.stride * y + x, im.buf.getD (im.stride * y + x) 0 / 2))

/-- image_u8_darken (lines 294-301): halve every pixel in place. -/
def image_u8_darken (im : image_u8) : image_u8 :=
  { im with buf := setWrites (darkenWrites im) im.buf }

/-- C10: darken writes only the first width bytes of each of the height
    rows: each pixel becomes its old value divided by two (truncating),
    while the width, height and stride fields, the array length, and every
    padding byte at row offsets in [width, stride) are unchanged. -/
theorem darken_spec (im : image_u8) (hws : im.width ≤ im.stride) :
    (image_u8_darken im).width = im.width ∧
    (image_u8_darken im).height = im.height ∧
    (image_u8_darken im).stride = im.stride ∧
    (image_u8_darken im).buf.length = im.buf.length ∧
    (∀ y < im.height, ∀ x < im.width,
      im.stride * y + x < im.buf.length →
      (image_u8_darken im).buf.getD (im.stride * y + x) 0 =
        im.buf.getD (im.stride * y + x) 0 / 2) ∧
    (∀ y < im.height, ∀ x, im.width ≤ x → x < im.stride →
      (image_u8_darken im).buf.getD (im.stride * y + x) 0 =
        im.buf.getD (im.stride * y + x) 0) := by
  refine ⟨rfl, rfl, rfl, length_setWrites _ _, ?_, ?_⟩
  · intro y hy x hx hlen
    apply getD_setWrites_unique
    · rw [darkenWrites, mem_flatList]
      refine ⟨_, List.mem_map.mpr ⟨y, List.mem_range.mpr hy, rfl⟩, ?_⟩
      exact List.mem_map.mpr ⟨x, List.mem_range.mpr hx, rfl⟩
    · exact hlen
    · intro p hp hpi
      rw [darkenWrites, mem_flatList] at hp
      obtain ⟨l, hl, hpl⟩ := hp
      obtain ⟨y2, hy2, rfl⟩ := List.mem_map.mp hl
      obtain ⟨x2, hx2, rfl⟩ := List.mem_map.mp hpl
      simp only at hpi ⊢
      have hx2w : x2 < im.width := List.mem_range.mp hx2
      obtain ⟨hyy, hxx⟩ := euclid_inj (by omega) (by omega) hpi
      rw [hyy, hxx]
  · intro y hy x hxw hxs
    apply getD_setWrites_notMem
    intro p hp
    rw [darkenWrites, mem_flatList] at hp
    obtain ⟨l, hl, hpl⟩ := hp
    obtain ⟨y2, hy2, rfl⟩ := List.mem_map.mp hl
    obtain ⟨x2, hx2, rfl⟩ := List.mem_map.mp hpl
    simp only
    intro hcontra
    have hx2w : x2 < im.width := List.mem_range.mp hx2
    obtain ⟨hyy, hxx⟩ := euclid_inj (by omega) (by omega) hcontra
    omega

/-- Witness for darken_spec on a concrete 2 by 2 buffer with stride 3:
    pixel (0,0) halves from 4 to 2 and the padding byte 9 is unchanged. -/
theorem darken_spec_witness :
    (image_u8_darken ⟨2, 2, 3, [4, 5, 9, 7, 8, 6]⟩).buf.getD 0 0 = 2 ∧
    (image_u8_darken ⟨2, 2, 3, [4, 5, 9, 7, 8, 6]⟩).buf.getD 2 0 = 9 := by
  have h := darken_spec ⟨2, 2, 3, [4, 5, 9, 7, 8, 6]⟩ (by decide)
  refine ⟨?_, ?_⟩
  · have := h.2.2.2.2.1 0 (by decide) 0 (by decide) (by decide)
    simpa using this
  · have := h.2.2.2.2.2 0 (by decide) 2 (by decide) (by decide)
    simpa using this

----------------------------------------------------------------
-- convolve (image_u8.c lines 303-321)
----------------------------------------------------------------

/-- Accumulator of the interior loop of convolve (lines 311-316): a 32-bit
    sum of kernel weight times source sample over the kernel window, then
    shifted right by 8. -/
def convInner (x k : List Nat) (i : Nat) : Nat :=
  (((List.range k.length).map fun j => k.getD j 0 * x.getD (i + j) 0).sum
    % 4294967296) >>> 8

/-- Write list of convolve (lines 303-321), in loop order: the head copy
    loop over i below min(ksz/2, sz), the interior loop over i below
    sz - ksz storing the shifted accumulator (truncated to a byte) at
    ksz/2 + i, and the tail copy loop from sz - ksz + ksz/2 up to sz.
    Subtractions are natural, matching the C ints whenever sz is at least
    ksz; for sz below ksz the tail loop of the C code starts at a negative
    index and reads out of bounds, which this model does not reproduce. -/
def convolveWrites (x k : List Nat) : List (Nat × Nat) :=
  ((List.range (min (k.length / 2) x.length)).map fun i => (i, x.getD i 0))
  ++ ((List.range (x.length - k.length)).map fun i =>
        (k.length / 2 + i, convInner x k i % 256))
  ++ ((List.range (x.length - (x.length - k.length + k.length / 2))).map fun j =>
        (x.length - k.length + k.length / 2 + j,
         x.getD (x.length - k.length + k.length / 2 + j) 0))

/-- convolve (lines 303-321).  The destination array y is modelled as
    starting equal to the source: in the horizontal pass of
    image_u8_convolve_2D the destination row holds a copy of the source
    row, and whenever sz is at least ksz the three loops overwrite every
    position anyway, so the initial content is immaterial. -/
def convolve (x k : List Nat) : List Nat :=
  setWrites (convolveWrites x k) x

/-- C4 counterexample: for a source of length 5 and a kernel of length 3,
    position 3 is written by the tail copy loop of convolve, yet it is
    neither among the first k/2 positions, nor among the last k/2
    positions, nor an interior store at i + k/2 with i below n - k: the
    claimed two cases do not account for every written position. -/
theorem convolve_claim_counterexample :
    (3, 0) ∈ convolveWrites (List.replicate 5 0) (List.replicate 3 0) ∧
    ¬ (3 < 3 / 2 ∨ (5 : Nat) - 3 / 2 ≤ 3 ∨ ∃ i < 5 - 3, 3 = 3 / 2 + i) := by
  decide

/-- C4 amended: the 1-D convolution pass copies the first k/2 and the last
    k/2 + 1 positions unchanged from the source (the tail loop starts at
    n - k + k/2 = n - k/2 - 1), and for every interior index i below n - k
    stores at index i + k/2 the byte sum(kernel[j] * source[i+j]) >> 8;
    the copied region and the interior region partition the positions. -/
theorem convolve_spec (x k : List Nat)
    (hodd : k.length % 2 = 1) (hk : k.length ≤ x.length) :
    (convolve x k).length = x.length ∧
    (∀ i < k.length / 2, (convolve x k).getD i 0 = x.getD i 0) ∧
    (∀ i, x.length - k.length / 2 - 1 ≤ i → i < x.length →
      (convolve x k).getD i 0 = x.getD i 0) ∧
    (∀ i < x.length - k.length,
      (convolve x k).getD (k.length / 2 + i) 0 = convInner x k i % 256) ∧
    (∀ p < x.length,
      (p < k.length / 2 ∨ x.length - k.length / 2 - 1 ≤ p) ↔
        ¬ ∃ i < x.length - k.length, p = k.length / 2 + i) := by
  refine ⟨length_setWrites _ _, ?_, ?_, ?_, ?_⟩
  · -- head copies
    intro i hi
    apply getD_setWrites_unique
    · refine List.mem_append.mpr (Or.inl (List.mem_append.mpr (Or.inl
        (List.mem_map.mpr ⟨i, ?_, rfl⟩))))
      exact List.mem_range.mpr (by omega)
    · omega
    · intro p hp hpi
      rcases List.mem_append.mp hp with hp12 | hp3
      · rcases List.mem_append.mp hp12 with hp1 | hp2
        · obtain ⟨j, hj, hpe⟩ := List.mem_map.mp hp1
          rw [List.mem_range] at hj
          subst hpe
          simp only at hpi ⊢
          rw [hpi]
        · obtain ⟨j, hj, hpe⟩ := List.mem_map.mp hp2
          rw [List.mem_range] at hj
          subst hpe
          simp only at hpi
          omega
      · obtain ⟨j, hj, hpe⟩ := List.mem_map.mp hp3
        rw [List.mem_range] at hj
        subst hpe
        simp only at hpi
        omega
  · -- tail copies
    intro i hi1 hi2
    apply getD_setWrites_unique
    · refine List.mem_append.mpr (Or.inr
        (List.mem_map.mpr ⟨i - (x.length - k.length + k.length / 2), ?_, ?_⟩))
      · exact List.mem_range.mpr (by omega)
      · have : x.length - k.length + k.length / 2 +
            (i - (x.length - k.length + k.length / 2)) = i := by omega
        rw [this]
    · omega
    · intro p hp hpi
      rcases List.mem_append.mp hp with hp12 | hp3
      · rcases List.mem_append.mp hp12 with hp1 | hp2
        · obtain ⟨j, hj, hpe⟩ := List.mem_map.mp hp1
          rw [List.mem_range] at hj
          subst hpe
          simp only at hpi
          omega
        · obtain ⟨j, hj, hpe⟩ := List.mem_map.mp hp2
          rw [List.mem_range] at hj
          subst hpe
          simp only at hpi
          omega
      · obtain ⟨j, hj, hpe⟩ := List.mem_map.mp hp3
        rw [List.mem_range] at hj
        subst hpe
        simp only at hpi ⊢
        rw [hpi]
  · -- interior stores
    intro i hi
    apply getD_setWrites_unique
    · refine List.mem_append.mpr (Or.inl (List.mem_append.mpr (Or.inr
        (List.mem_map.mpr ⟨i, ?_, rfl⟩))))
      exact List.mem_range.mpr (by omega)
    · omega
    · intro p hp hpi
      rcases List.mem_append.mp hp with hp12 | hp3
      · rcases List.mem_append.mp hp12 with hp1 | hp2
        · obtain ⟨j, hj, hpe⟩ := List.mem_map.mp hp1
          rw [List.mem_range] at hj
          subst hpe
          simp only at hpi
          omega
        · obtain ⟨j, hj, hpe⟩ := List.mem_map.mp hp2
          rw [List.mem_range] at hj
          subst hpe
          simp only at hpi ⊢
          have : j = i := by omega
          rw [this]
      · obtain ⟨j, hj, hpe⟩ := List.mem_map.mp hp3
        rw [List.mem_range] at hj
        subst hpe
        simp only at hpi
        omega
  · -- exact partition of positions
    intro p hp
    constructor
    · rintro hb ⟨i, hi, rfl⟩
      omega
    · intro hni
      by_contra hc
      push_neg at hc
      exact hni ⟨p - k.length / 2, by omega, by omega⟩

/-- Witness for convolve_spec with a length-5 source and length-3 kernel:
    the head byte is copied, position 3 is copied by the tail loop, and
    the interior position 1 holds the shifted weighted sum. -/
theorem convolve_spec_witness :
    (convolve [10, 20, 30, 40, 50] [64, 128, 64]).getD 0 0 = 10 ∧
    (convolve [10, 20, 30, 40, 50] [64, 128, 64]).getD 3 0 = 40 ∧
    (convolve [10, 20, 30, 40, 50] [64, 128, 64]).getD 1 0 = 20 := by
  have h := convolve_spec [10, 20, 30, 40, 50] [64, 128, 64]
    (by decide) (by decide)
  refine ⟨?_, ?_, ?_⟩
  · have := h.2.1 0 (by decide)
    simpa using this
  · have := h.2.2.1 3 (by decide) (by decide)
    simpa using this
  · have := h.2.2.2.1 0 (by decide)
    simpa using this

----------------------------------------------------------------
-- Grid-write and accumulation helpers
----------------------------------------------------------------

/-- Variant of euclid_inj for indices written as y * s + x. -/
theorem euclid_inj_right {s y1 x1 y2 x2 : Nat} (hx1 : x1 < s) (hx2 : x2 < s)
    (h : y1 * s + x1 = y2 * s + x2) : y1 = y2 ∧ x1 = x2 := by
  apply euclid_inj hx1 hx2
  rw [Nat.mul_comm s y1, Nat.mul_comm s y2]
  exact h

/-- Reading back a doubly nested loop of writes at row-major targets:
    each target is written exactly once, so the final value at target
    (sy, sx) is the value computed for that cell. -/
theorem getD_setWrites_grid (H W ds : Nat) (val : Nat → Nat → Nat) (b : List Nat)
    (hW : W ≤ ds) (sy sx : Nat) (hy : sy < H) (hx : sx < W)
    (hlen : sy * ds + sx < b.length) :
    (setWrites (flatList ((List.range H).map fun y =>
        (List.range W).map fun x => (y * ds + x, val y x))) b).getD
      (sy * ds + sx) 0 = val sy sx := by
  apply getD_setWrites_unique
  · rw [mem_flatList]
    refine ⟨_, List.mem_map.mpr ⟨sy, List.mem_range.mpr hy, rfl⟩, ?_⟩
    exact List.mem_map.mpr ⟨sx, List.mem_range.mpr hx, rfl⟩
  · exact hlen
  · intro p hp hpi
    rw [mem_flatList] at hp
    obtain ⟨l, hl, hpl⟩ := hp
    obtain ⟨y2, hy2, rfl⟩ := List.mem_map.mp hl
    obtain ⟨x2, hx2, hpe⟩ := List.mem_map.mp hpl
    rw [List.mem_range] at hy2 hx2
    subst hpe
    simp only at hpi ⊢
    obtain ⟨hyy, hxx⟩ := euclid_inj_right (by omega) (by omega) hpi
    rw [hyy, hxx]

/-- Histogram fold: accumulating values into a scratch row at key-indexed
    cells, with 32-bit wraparound, yields at each cell the reduced sum of
    the values whose key hits that cell. -/
theorem getD_foldl_accum {α : Type} (l : List α) (key : α → Nat) (v : α → Nat)
    (m : Nat) (hm : 0 < m) (row : List Nat) (p : Nat) (hp : p < row.length)
    (h0 : row.getD p 0 < m) :
    (l.foldl (fun r a => r.set (key a) ((r.getD (key a) 0 + v a) % m)) row).getD p 0
      = (row.getD p 0 + ((l.filter fun a => key a = p).map v).sum) % m := by
  induction l generalizing row with
  | nil =>
    simp only [List.foldl_nil, List.filter_nil, List.map_nil, List.sum_nil,
      Nat.add_zero]
    rw [Nat.mod_eq_of_lt h0]
  | cons a t ih =>
    by_cases hk : key a = p
    · have hset : (row.set (key a) ((row.getD (key a) 0 + v a) % m)).getD p 0
          = (row.getD p 0 + v a) % m := by
        rw [hk, getD_set_self _ _ _ hp]
      rw [List.foldl_cons,
        ih _ (by rw [List.length_set]; exact hp) (by rw [hset]; exact Nat.mod_lt _ hm),
        hset]
      have hfil : (a :: t).filter (fun a => key a = p) =
          a :: t.filter (fun a => key a = p) := by
        simp [List.filter_cons, hk]
      rw [hfil, List.map_cons, List.sum_cons, Nat.mod_add_mod]
      congr 1
      omega
    · have hset : (row.set (key a) ((row.getD (key a) 0 + v a) % m)).getD p 0
          = row.getD p 0 := getD_set_other _ _ _ _ hk
      rw [List.foldl_cons,
        ih _ (by rw [List.length_set]; exact hp) (by rw [hset]; exact h0),
        hset]
      have hfil : (a :: t).filter (fun a => key a = p) =
          t.filter (fun a => key a = p) := by
        simp [List.filter_cons, hk]
      rw [hfil]

theorem div_eq_iff_between {f n p : Nat} (hf : 0 < f) :
    n / f = p ↔ f * p ≤ n ∧ n < f * p + f := by
  constructor
  · intro h
    subst h
    have h1 := Nat.div_add_mod n f
    have h2 : n % f < f := Nat.mod_lt n hf
    omega
  · rintro ⟨h1, h2⟩
    have hc1 : f * p = p * f := Nat.mul_comm f p
    have hc2 : f * p + f = (p + 1) * f := by ring
    have hle : p ≤ n / f := (Nat.le_div_iff_mul_le hf).mpr (by omega)
    have hlt : n / f < p + 1 := (Nat.div_lt_iff_lt_mul hf).mpr (by omega)
    omega

/-- Number of x below n whose quotient by f equals p. -/
theorem count_div_range_aux (f p n : Nat) (hf : 0 < f) :
    ((List.range n).filter fun x => x / f = p).length = min f (n - f * p) := by
  induction n with
  | zero => simp
  | succ n ih =>
    rw [List.range_succ, List.filter_append, List.length_append, ih]
    by_cases h : n / f = p
    · have hb := (div_eq_iff_between hf).mp h
      simp only [List.filter_cons, List.filter_nil, h]
      simp
      omega
    · have hb : ¬(f * p ≤ n ∧ n < f * p + f) := fun hc =>
        h ((div_eq_iff_between hf).mpr hc)
      simp only [List.filter_cons, List.filter_nil, h]
      simp [h]
      omega

theorem count_div_range (f w p : Nat) (hf : 0 < f) (hw : f ∣ w) (hp : p < w / f) :
    ((List.range w).filter fun x => x / f = p).length = f := by
  obtain ⟨q, rfl⟩ := hw
  rw [count_div_range_aux f p _ hf]
  rw [Nat.mul_div_cancel_left q hf] at hp
  have h1 : f * (p + 1) ≤ f * q := Nat.mul_le_mul_left f (by omega)
  have h2 : f * (p + 1) = f * p + f := by ring
  omega

theorem sum_map_const_of {α : Type} (l : List α) (g : α → Nat) (c : Nat)
    (h : ∀ a ∈ l, g a = c) : (l.map g).sum = l.length * c := by
  induction l with
  | nil => simp
  | cons a t ih =>
    rw [List.map_cons, List.sum_cons, h a (by simp), List.length_cons,
      ih (fun b hb => h b (by simp [hb]))]
    ring

----------------------------------------------------------------
-- image_u8_decimate, integer factors (image_u8.c lines 559-703)
----------------------------------------------------------------

/-- Destination byte of the factor-2 path (lines 631-643): average of a
    2x2 source block, sum shifted right by 2, stored as a byte.  The
    running source index idx equals 2*sy*stride + 2*sx. -/
def decim2Val (im : image_u8) (sy sx : Nat) : Nat :=
  ((im.buf.getD (2 * sy * im.stride + 2 * sx) 0 +
    im.buf.getD (2 * sy * im.stride + 2 * sx + 1) 0 +
    im.buf.getD (2 * sy * im.stride + 2 * sx + im.stride) 0 +
    im.buf.getD (2 * sy * im.stride + 2 * sx + im.stride + 1) 0) >>> 2) % 256

/-- Destination byte of the factor-3 path (lines 644-659): eight of the
    nine values of a 3x3 block (the bottom-right corner is omitted), sum
    shifted right by 3, stored as a byte. -/
def decim3Val (im : image_u8) (sy sx : Nat) : Nat :=
  ((im.buf.getD (3 * sy * im.stride + 3 * sx) 0 +
    im.buf.getD (3 * sy * im.stride + 3 * sx + 1) 0 +
    im.buf.getD (3 * sy * im.stride + 3 * sx + 2) 0 +
    im.buf.getD (3 * sy * im.stride + 3 * sx + im.stride) 0 +
    im.buf.getD (3 * sy * im.stride + 3 * sx + im.stride + 1) 0 +
    im.buf.getD (3 * sy * im.stride + 3 * sx + im.stride + 2) 0 +
    im.buf.getD (3 * sy * im.stride + 3 * sx + 2 * im.stride) 0 +
    im.buf.getD (3 * sy * im.stride + 3 * sx + 2 * im.stride + 1) 0) >>> 3) % 256

/-- Destination byte of the factor-4 path (lines 660-674): twelve reads
    from the first three rows of a 4x4 block, the second row's index
    idx+stride+1 appearing twice, sum shifted right by 4, stored as a
    byte. -/
def decim4Val (im : image_u8) (sy sx : Nat) : Nat :=
  ((im.buf.getD (4 * sy * im.stride + 4 * sx) 0 +
    im.buf.getD (4 * sy * im.stride + 4 * sx + 1) 0 +
    im.buf.getD (4 * sy * im.stride + 4 * sx + 2) 0 +
    im.buf.getD (4 * sy * im.stride + 4 * sx + 3) 0 +
    im.buf.getD (4 * sy * im.stride + 4 * sx + im.stride) 0 +
    im.buf.getD (4 * sy * im.stride + 4 * sx + im.stride + 1) 0 +
    im.buf.getD (4 * sy * im.stride + 4 * sx + im.stride + 1) 0 +
    im.buf.getD (4 * sy * im.stride + 4 * sx + im.stride + 2) 0 +
    im.buf.getD (4 * sy * im.stride + 4 * sx + 2 * im.stride) 0 +
    im.buf.getD (4 * sy * im.stride + 4 * sx + 2 * im.stride + 1) 0 +
    im.buf.getD (4 * sy * im.stride + 4 * sx + 2 * im.stride + 2) 0 +
    im.buf.getD (4 * sy * im.stride + 4 * sx + 2 * im.stride + 3) 0) >>> 4) % 256

/-- Per-block scratch accumulation of the generic path (lines 683-690):
    a zeroed row of swidth 32-bit accumulators receives, for dy below
    factor and every x below width, the source byte of row y+dy, column x,
    added at scratch cell x/factor with 32-bit wraparound.  Out-of-range
    scratch cells (which the C code overruns when factor does not divide
    width) are dropped by List.set; the separate access-footprint
    definitions below expose those accesses for the safety claim. -/
def decimGenericRow (im : image_u8) (factor y : Nat) : List Nat :=
  (List.range factor).foldl (fun row dy =>
    (List.range im.width).foldl (fun r x =>
      r.set (x / factor)
        ((r.getD (x / factor) 0 + im.buf.getD ((y + dy) * im.stride + x) 0)
          % 4294967296)) row)
    (List.replicate (im.width / factor) 0)

/-- Destination byte of the generic path (lines 692-693): accumulator cell
    divided by factor squared, stored as a byte.  The outer loop variable
    y of the C code is factor * t for the t-th iteration. -/
def decimGenericVal (im : image_u8) (factor t x : Nat) : Nat :=
  ((decimGenericRow im factor (factor * t)).getD x 0 / (factor * factor)) % 256

/-- Write list of the generic path (lines 683-695): the outer loop runs
    for y = 0, factor, 2*factor, ... while y < height, hence
    ceil(height/factor) iterations, and stores swidth bytes at row
    y/factor of the destination. -/
def decimGenericWrites (im : image_u8) (factor ds : Nat) : List (Nat × Nat) :=
  flatList (((List.range ((im.height + factor - 1) / factor)).map fun t =>
    (List.range (im.width / factor)).map fun x =>
      ((factor * t / factor) * ds + x, decimGenericVal im factor t x)))

/-- Write list of the factor-2 scalar path (lines 631-643). -/
def decim2Writes (im : image_u8) (ds : Nat) : List (Nat × Nat) :=
  flatList ((List.range (im.height / 2)).map fun sy =>
    (List.range (im.width / 2)).map fun sx => (sy * ds + sx, decim2Val im sy sx))

/-- Write list of the factor-3 scalar path (lines 644-659). -/
def decim3Writes (im : image_u8) (ds : Nat) : List (Nat × Nat) :=
  flatList ((List.range (im.height / 3)).map fun sy =>
    (List.range (im.width / 3)).map fun sx => (sy * ds + sx, decim3Val im sy sx))

/-- Write list of the factor-4 scalar path (lines 660-674). -/
def decim4Writes (im : image_u8) (ds : Nat) : List (Nat × Nat) :=
  flatList ((List.range (im.height / 4)).map fun sy =>
    (List.range (im.width / 4)).map fun sx => (sy * ds + sx, decim4Val im sy sx))

/-- image_u8_decimate (lines 559-703) for an integer factor: the
    destination is created with dimensions width/factor by height/factor
    (line 611-613) and filled by the factor-2, factor-3, factor-4 or
    generic scalar path.  The float ffactor == 1.5 branch (lines 563-607)
    is not reachable from an integer factor and is not modelled; the NEON
    branches are conditionally compiled alternatives to the same scalar
    formulas. -/
def image_u8_decimate (im : image_u8) (factor : Nat) : image_u8 :=
  let decim := image_u8_create (im.width / factor) (im.height / factor)
  let ws :=
    if factor = 2 then decim2Writes im decim.stride
    else if factor = 3 then decim3Writes im decim.stride
    else if factor = 4 then decim4Writes im decim.stride
    else decimGenericWrites im factor decim.stride
  { decim with buf := setWrites ws decim.buf }

/-- Access footprint of the generic path on the scratch row (line 688):
    cell x/factor for every x below width.  When factor does not divide
    width the last cells spill past the swidth-long row. -/
def decimGenericScratchWrites (width factor : Nat) : List Nat :=
  (List.range width).map (· / factor)

/-- Access footprint of the generic path on source rows (lines 683-688):
    rows y+dy for y = factor*t below height and dy below factor.  When
    factor does not divide height the last block reads rows past the
    source. -/
def decimGenericSrcRows (height factor : Nat) : List Nat :=
  flatList ((List.range ((height + factor - 1) / factor)).map fun t =>
    (List.range factor).map fun dy => factor * t + dy)

/-- Access footprint of the generic path on destination rows (line 693):
    row y/factor for each outer iteration.  When factor does not divide
    height the last iteration writes row sheight, past the destination. -/
def decimGenericDestRows (height factor : Nat) : List Nat :=
  (List.range ((height + factor - 1) / factor)).map fun t => factor * t / factor

theorem length_foldl_set {α : Type} (l : List α) (key : α → Nat)
    (g : List Nat → α → Nat) (row : List Nat) :
    (l.foldl (fun r a => r.set (key a) (g r a)) row).length = row.length := by
  induction l generalizing row with
  | nil => rfl
  | cons a t ih => rw [List.foldl_cons, ih, List.length_set]

theorem getD_replicate_zero (n p : Nat) : (List.replicate n 0).getD p 0 = 0 := by
  induction n generalizing p with
  | zero => cases p <;> simp
  | succ m ih => cases p with
    | zero => simp [List.replicate]
    | succ q => simpa [List.replicate] using ih q

theorem create_buf_len (w h : Nat) :
    (image_u8_create w h).buf.length = h * alignedStride w 96 := by
  simp [image_u8_create, image_u8_create_alignment, image_u8_create_stride]

theorem decimate_eq_2 (im : image_u8) :
    image_u8_decimate im 2 =
      { image_u8_create (im.width / 2) (im.height / 2) with
        buf := setWrites
          (decim2Writes im (image_u8_create (im.width / 2) (im.height / 2)).stride)
          (image_u8_create (im.width / 2) (im.height / 2)).buf } := rfl

theorem decimate_eq_3 (im : image_u8) :
    image_u8_decimate im 3 =
      { image_u8_create (im.width / 3) (im.height / 3) with
        buf := setWrites
          (decim3Writes im (image_u8_create (im.width / 3) (im.height / 3)).stride)
          (image_u8_create (im.width / 3) (im.height / 3)).buf } := rfl

theorem decimate_eq_4 (im : image_u8) :
    image_u8_decimate im 4 =
      { image_u8_create (im.width / 4) (im.height / 4) with
        buf := setWrites
          (decim4Writes im (image_u8_create (im.width / 4) (im.height / 4)).stride)
          (image_u8_create (im.width / 4) (im.height / 4)).buf } := rfl

theorem decimate_eq_generic (im : image_u8) (f : Nat)
    (h2 : f ≠ 2) (h3 : f ≠ 3) (h4 : f ≠ 4) :
    image_u8_decimate im f =
      { image_u8_create (im.width / f) (im.height / f) with
        buf := setWrites
          (decimGenericWrites im f
            (image_u8_create (im.width / f) (im.height / f)).stride)
          (image_u8_create (im.width / f) (im.height / f)).buf } := by
  unfold image_u8_decimate
  simp [h2, h3, h4]

theorem decim2Val_uniform (im : image_u8) (V : Nat) (hV : V ≤ 255)
    (hw : 2 ∣ im.width) (hh : 2 ∣ im.height)
    (hb : ∀ y < im.height, ∀ x < im.width, im.buf.getD (y * im.stride + x) 0 = V)
    (sy sx : Nat) (hy : sy < im.height / 2) (hx : sx < im.width / 2) :
    decim2Val im sy sx = V := by
  have r1 : im.buf.getD (2 * sy * im.stride + 2 * sx) 0 = V := by
    have e : 2 * sy * im.stride + 2 * sx = (2 * sy) * im.stride + (2 * sx) := by ring
    rw [e]; exact hb _ (by omega) _ (by omega)
  have r2 : im.buf.getD (2 * sy * im.stride + 2 * sx + 1) 0 = V := by
    have e : 2 * sy * im.stride + 2 * sx + 1
        = (2 * sy) * im.stride + (2 * sx + 1) := by ring
    rw [e]; exact hb _ (by omega) _ (by omega)
  have r3 : im.buf.getD (2 * sy * im.stride + 2 * sx + im.stride) 0 = V := by
    have e : 2 * sy * im.stride + 2 * sx + im.stride
        = (2 * sy + 1) * im.stride + (2 * sx) := by ring
    rw [e]; exact hb _ (by omega) _ (by omega)
  have r4 : im.buf.getD (2 * sy * im.stride + 2 * sx + im.stride + 1) 0 = V := by
    have e : 2 * sy * im.stride + 2 * sx + im.stride + 1
        = (2 * sy + 1) * im.stride + (2 * sx + 1) := by ring
    rw [e]; exact hb _ (by omega) _ (by omega)
  unfold decim2Val
  rw [r1, r2, r3, r4]
  have e4 : V + V + V + V = 4 * V := by ring
  rw [e4, Nat.shiftRight_eq_div_pow]
  norm_num
  omega

theorem decim3Val_uniform (im : image_u8) (V : Nat) (hV : V ≤ 255)
    (hw : 3 ∣ im.width) (hh : 3 ∣ im.height)
    (hb : ∀ y < im.height, ∀ x < im.width, im.buf.getD (y * im.stride + x) 0 = V)
    (sy sx : Nat) (hy : sy < im.height / 3) (hx : sx < im.width / 3) :
    decim3Val im sy sx = V := by
  have rd : ∀ dy < 3, ∀ dx < 3,
      im.buf.getD (3 * sy * im.stride + 3 * sx + dy * im.stride + dx) 0 = V := by
    intro dy hdy dx hdx
    have e : 3 * sy * im.stride + 3 * sx + dy * im.stride + dx
        = (3 * sy + dy) * im.stride + (3 * sx + dx) := by ring
    rw [e]; exact hb _ (by omega) _ (by omega)
  have r1 := rd 0 (by omega) 0 (by omega)
  have r2 := rd 0 (by omega) 1 (by omega)
  have r3 := rd 0 (by omega) 2 (by omega)
  have r4 := rd 1 (by omega) 0 (by omega)
  have r5 := rd 1 (by omega) 1 (by omega)
  have r6 := rd 1 (by omega) 2 (by omega)
  have r7 := rd 2 (by omega) 0 (by omega)
  have r8 := rd 2 (by omega) 1 (by omega)
  simp only [Nat.zero_mul, Nat.one_mul, Nat.add_zero] at r1 r2 r3 r4 r5 r6 r7 r8
  unfold decim3Val
  rw [r1, r2, r3, r4, r5, r6, r7, r8]
  have e8 : V + V + V + V + V + V + V + V = 8 * V := by ring
  rw [e8, Nat.shiftRight_eq_div_pow]
  norm_num
  omega

theorem decim4Val_uniform (im : image_u8) (V : Nat) (hV : V ≤ 255)
    (hw : 4 ∣ im.width) (hh : 4 ∣ im.height)
    (hb : ∀ y < im.height, ∀ x < im.width, im.buf.getD (y * im.stride + x) 0 = V)
    (sy sx : Nat) (hy : sy < im.height / 4) (hx : sx < im.width / 4) :
    decim4Val im sy sx = (12 * V) >>> 4 := by
  have rd : ∀ dy < 4, ∀ dx < 4,
      im.buf.getD (4 * sy * im.stride + 4 * sx + dy * im.stride + dx) 0 = V := by
    intro dy hdy dx hdx
    have e : 4 * sy * im.stride + 4 * sx + dy * im.stride + dx
        = (4 * sy + dy) * im.stride + (4 * sx + dx) := by ring
    rw [e]; exact hb _ (by omega) _ (by omega)
  have r1 := rd 0 (by omega) 0 (by omega)
  have r2 := rd 0 (by omega) 1 (by omega)
  have r3 := rd 0 (by omega) 2 (by omega)
  have r4 := rd 0 (by omega) 3 (by omega)
  have r5 := rd 1 (by omega) 0 (by omega)
  have r6 := rd 1 (by omega) 1 (by omega)
  have r7 := rd 1 (by omega) 2 (by omega)
  have r8 := rd 2 (by omega) 0 (by omega)
  have r9 := rd 2 (by omega) 1 (by omega)
  have r10 := rd 2 (by omega) 2 (by omega)
  have r11 := rd 2 (by omega) 3 (by omega)
  simp only [Nat.zero_mul, Nat.one_mul, Nat.add_zero] at r1 r2 r3 r4 r5 r6 r7 r8 r9 r10 r11
  unfold decim4Val
  rw [r1, r2, r3, r4, r5, r6, r7, r8, r9, r10, r11]
  have e12 : V + V + V + V + V + V + V + V + V + V + V + V = 12 * V := by ring
  rw [e12]
  have hlt : (12 * V) >>> 4 < 256 := by
    rw [Nat.shiftRight_eq_div_pow]
    omega
  exact Nat.mod_eq_of_lt hlt

theorem decimGenericRow_aux (im : image_u8) (f y : Nat) (dys : List Nat)
    (row : List Nat) (p : Nat) (hp : p < row.length)
    (h0 : row.getD p 0 < 4294967296) :
    (dys.foldl (fun row dy =>
        (List.range im.width).foldl (fun r x =>
          r.set (x / f) ((r.getD (x / f) 0 + im.buf.getD ((y + dy) * im.stride + x) 0)
            % 4294967296)) row) row).getD p 0
      = (row.getD p 0 + (dys.map fun dy =>
          (((List.range im.width).filter fun x => x / f = p).map fun x =>
            im.buf.getD ((y + dy) * im.stride + x) 0).sum).sum) % 4294967296 := by
  induction dys generalizing row with
  | nil =>
    simp only [List.foldl_nil, List.map_nil, List.sum_nil, Nat.add_zero]
    rw [Nat.mod_eq_of_lt h0]
  | cons dy t ih =>
    rw [List.foldl_cons, List.map_cons, List.sum_cons]
    have hinner : ((List.range im.width).foldl (fun r x =>
          r.set (x / f) ((r.getD (x / f) 0 + im.buf.getD ((y + dy) * im.stride + x) 0)
            % 4294967296)) row).getD p 0
        = (row.getD p 0 + (((List.range im.width).filter fun x => x / f = p).map fun x =>
            im.buf.getD ((y + dy) * im.stride + x) 0).sum) % 4294967296 :=
      getD_foldl_accum (List.range im.width) (fun x => x / f)
        (fun x => im.buf.getD ((y + dy) * im.stride + x) 0) 4294967296 (by norm_num)
        row p hp h0
    have hlen : ((List.range im.width).foldl (fun r x =>
          r.set (x / f) ((r.getD (x / f) 0 + im.buf.getD ((y + dy) * im.stride + x) 0)
            % 4294967296)) row).length = row.length :=
      length_foldl_set (List.range im.width) (fun x => x / f) _ row
    rw [ih _ (by rw [hlen]; exact hp)
      (by rw [hinner]; exact Nat.mod_lt _ (by norm_num)), hinner,
      Nat.mod_add_mod, Nat.add_assoc]

/-- Uniform-input value of the generic scratch row: each in-range cell
    accumulates factor columns over factor rows of the constant V, giving
    factor * (factor * V) with no 32-bit wraparound. -/
theorem decimGenericRow_uniform (im : image_u8) (f y V : Nat) (hf : 0 < f)
    (hw : f ∣ im.width)
    (hacc : f * f * 255 < 4294967296) (hV : V ≤ 255)
    (hrows : ∀ dy < f, ∀ x < im.width,
      im.buf.getD ((y + dy) * im.stride + x) 0 = V)
    (p : Nat) (hp : p < im.width / f) :
    (decimGenericRow im f y).getD p 0 = f * (f * V) := by
  unfold decimGenericRow
  have hlenrep : p < (List.replicate (im.width / f) (0 : Nat)).length := by
    simpa using hp
  have h0 : (List.replicate (im.width / f) (0 : Nat)).getD p 0 < 4294967296 := by
    rw [getD_replicate_zero]; norm_num
  rw [decimGenericRow_aux im f y (List.range f) _ p hlenrep h0, getD_replicate_zero]
  have hcount : ((List.range im.width).filter fun x => x / f = p).length = f :=
    count_div_range f im.width p hf hw hp
  have hin : ∀ dy ∈ List.range f,
      (((List.range im.width).filter fun x => x / f = p).map fun x =>
        im.buf.getD ((y + dy) * im.stride + x) 0).sum = f * V := by
    intro dy hdy
    rw [List.mem_range] at hdy
    have hsum := sum_map_const_of ((List.range im.width).filter fun x => x / f = p)
      (fun x => im.buf.getD ((y + dy) * im.stride + x) 0) V ?_
    · rw [hsum, hcount]
    · intro x hxmem
      have hx1 := List.mem_filter.mp hxmem
      have hx2 : x < im.width := List.mem_range.mp hx1.1
      exact hrows dy hdy x hx2
  have houter := sum_map_const_of (List.range f)
    (fun dy => (((List.range im.width).filter fun x => x / f = p).map fun x =>
      im.buf.getD ((y + dy) * im.stride + x) 0).sum) (f * V) hin
  rw [houter]
  simp only [List.length_range, Nat.zero_add]
  have hb1 : f * (f * V) = f * f * V := by ring
  have hb2 : f * f * V ≤ f * f * 255 := Nat.mul_le_mul_left (f * f) hV
  exact Nat.mod_eq_of_lt (by omega)

/-- Uniform-input value of a generic-path destination byte: the cell sum
    factor * factor * V divided by factor squared is V. -/
theorem decimGenericVal_uniform (im : image_u8) (f V : Nat) (hf : 0 < f)
    (hV : V ≤ 255) (hw : f ∣ im.width) (hh : f ∣ im.height)
    (hacc : f * f * 255 < 4294967296)
    (hb : ∀ y < im.height, ∀ x < im.width, im.buf.getD (y * im.stride + x) 0 = V)
    (t x : Nat) (ht : t < im.height / f) (hx : x < im.width / f) :
    decimGenericVal im f t x = V := by
  obtain ⟨qh, hqh⟩ := hh
  have hqdiv : im.height / f = qh := by rw [hqh, Nat.mul_div_cancel_left qh hf]
  have hrows : ∀ dy < f, ∀ x2 < im.width,
      im.buf.getD ((f * t + dy) * im.stride + x2) 0 = V := by
    intro dy hdy x2 hx2
    apply hb _ _ _ hx2
    have ht1 : t + 1 ≤ qh := by omega
    have hmul : f * (t + 1) ≤ f * qh := Nat.mul_le_mul_left f ht1
    have hexp : f * (t + 1) = f * t + f := by ring
    omega
  have hrow := decimGenericRow_uniform im f (f * t) V hf hw hacc hV hrows x hx
  unfold decimGenericVal
  rw [hrow]
  have hffpos : 0 < f * f := Nat.mul_pos hf hf
  have he : f * (f * V) = (f * f) * V := by ring
  rw [he, Nat.mul_div_cancel_left V hffpos]
  exact Nat.mod_eq_of_lt (by omega)

theorem decimate_buf_2 (im : image_u8) :
    (image_u8_decimate im 2).buf =
      setWrites (decim2Writes im (alignedStride (im.width / 2) 96))
        (image_u8_create (im.width / 2) (im.height / 2)).buf := rfl

theorem decimate_buf_3 (im : image_u8) :
    (image_u8_decimate im 3).buf =
      setWrites (decim3Writes im (alignedStride (im.width / 3) 96))
        (image_u8_create (im.width / 3) (im.height / 3)).buf := rfl

theorem decimate_buf_4 (im : image_u8) :
    (image_u8_decimate im 4).buf =
      setWrites (decim4Writes im (alignedStride (im.width / 4) 96))
        (image_u8_create (im.width / 4) (im.height / 4)).buf := rfl

theorem decimate_buf_generic (im : image_u8) (f : Nat)
    (h2 : f ≠ 2) (h3 : f ≠ 3) (h4 : f ≠ 4) :
    (image_u8_decimate im f).buf =
      setWrites (decimGenericWrites im f (alignedStride (im.width / f) 96))
        (image_u8_create (im.width / f) (im.height / f)).buf := by
  rw [decimate_eq_generic im f h2 h3 h4]
  rfl

/-- Ceiling iteration count of the generic outer loop collapses to an
    exact quotient when the factor divides the height. -/
theorem ceil_div_of_dvd (h f : Nat) (hf : 0 < f) (hh : f ∣ h) :
    (h + f - 1) / f = h / f := by
  obtain ⟨q, hq⟩ := hh
  rw [hq]
  have h1 : f * q + f - 1 = (f - 1) + f * q := by omega
  rw [h1, Nat.add_mul_div_left (f - 1) q hf, Nat.div_eq_of_lt (by omega),
    Nat.mul_div_cancel_left q hf]
  omega

theorem decimGenericWrites_grid (im : image_u8) (f ds : Nat) (hf : 0 < f) :
    decimGenericWrites im f ds =
      flatList ((List.range ((im.height + f - 1) / f)).map fun t =>
        (List.range (im.width / f)).map fun x =>
          (t * ds + x, decimGenericVal im f t x)) := by
  unfold decimGenericWrites
  simp only [Nat.mul_div_cancel_left _ hf]

/-- C1 counterexample: decimation by factor 4 of a uniform all-255 buffer
    of exact multiple dimensions 4x4 produces the pixel 191, not 255: the
    factor-4 path sums only 12 of the 16 block values but shifts by 4. -/
theorem decimate_claim_counterexample :
    (image_u8_decimate ⟨4, 4, 4, List.replicate 16 255⟩ 4).buf.getD 0 0 = 191 ∧
    (191 : Nat) ≠ 255 := by
  constructor
  · decide
  · decide

/-- C1 amended: decimating a uniform all-V buffer whose dimensions are
    exact multiples of the factor yields a width/factor by height/factor
    buffer whose every pixel equals V for factor 2, factor 3 and the
    generic integer path (any positive factor other than 2, 3, 4 whose
    squared value times 255 fits the 32-bit accumulator); for factor 4
    every destination pixel is (12*V) >> 4 instead, because that path
    sums 12 of the 16 block values and shifts by 4.  In particular factor
    2 on a 4x4 all-V buffer yields a 2x2 all-V buffer. -/
theorem decimate_uniform_spec (im : image_u8) (V factor : Nat)
    (hV : V ≤ 255) (hf : 0 < factor)
    (hw : factor ∣ im.width) (hh : factor ∣ im.height)
    (hacc : factor * factor * 255 < 4294967296)
    (hb : ∀ y < im.height, ∀ x < im.width, im.buf.getD (y * im.stride + x) 0 = V) :
    (image_u8_decimate im factor).width = im.width / factor ∧
    (image_u8_decimate im factor).height = im.height / factor ∧
    ∀ sy < im.height / factor, ∀ sx < im.width / factor,
      (image_u8_decimate im factor).buf.getD
        (sy * (image_u8_decimate im factor).stride + sx) 0 =
        if factor = 4 then (12 * V) >>> 4 else V := by
  refine ⟨rfl, rfl, ?_⟩
  intro sy hy sx hx
  have hds : (image_u8_decimate im factor).stride
      = alignedStride (im.width / factor) 96 := rfl
  have hxds : sx < alignedStride (im.width / factor) 96 :=
    Nat.lt_of_lt_of_le hx (alignedStride_ge _ _)
  have hlen : sy * alignedStride (im.width / factor) 96 + sx
      < (image_u8_create (im.width / factor) (im.height / factor)).buf.length := by
    rw [create_buf_len]
    exact rowcol_lt hy hxds
  by_cases h2 : factor = 2
  · subst h2
    rw [if_neg (by omega), hds, decimate_buf_2]
    exact (getD_setWrites_grid (im.height / 2) (im.width / 2) _ (decim2Val im) _
      (alignedStride_ge _ _) sy sx hy hx hlen).trans
      (decim2Val_uniform im V hV hw hh hb sy sx hy hx)
  by_cases h3 : factor = 3
  · subst h3
    rw [if_neg (by omega), hds, decimate_buf_3]
    exact (getD_setWrites_grid (im.height / 3) (im.width / 3) _ (decim3Val im) _
      (alignedStride_ge _ _) sy sx hy hx hlen).trans
      (decim3Val_uniform im V hV hw hh hb sy sx hy hx)
  by_cases h4 : factor = 4
  · subst h4
    rw [if_pos rfl, hds, decimate_buf_4]
    exact (getD_setWrites_grid (im.height / 4) (im.width / 4) _ (decim4Val im) _
      (alignedStride_ge _ _) sy sx hy hx hlen).trans
      (decim4Val_uniform im V hV hw hh hb sy sx hy hx)
  · rw [if_neg h4, hds, decimate_buf_generic im factor h2 h3 h4,
      decimGenericWrites_grid im factor _ hf,
      ceil_div_of_dvd im.height factor hf hh]
    exact (getD_setWrites_grid (im.height / factor) (im.width / factor) _
      (decimGenericVal im factor) _ (alignedStride_ge _ _) sy sx hy hx hlen).trans
      (decimGenericVal_uniform im factor V hf hV hw hh hacc hb sy sx hy hx)

/-- Witness for decimate_uniform_spec: factor 2 on a concrete uniform 4x4
    all-7 buffer gives a 2x2 buffer whose four pixels are all 7. -/
theorem decimate_uniform_spec_witness :
    (image_u8_decimate ⟨4, 4, 4, List.replicate 16 7⟩ 2).width = 2 ∧
    (image_u8_decimate ⟨4, 4, 4, List.replicate 16 7⟩ 2).height = 2 ∧
    (image_u8_decimate ⟨4, 4, 4, List.replicate 16 7⟩ 2).buf.getD
      (1 * (image_u8_decimate ⟨4, 4, 4, List.replicate 16 7⟩ 2).stride + 1) 0 = 7 := by
  have h := decimate_uniform_spec ⟨4, 4, 4, List.replicate 16 7⟩ 7 2
    (by decide) (by decide) (by decide) (by decide) (by decide) (by decide)
  refine ⟨h.1, h.2.1, ?_⟩
  have h2 := h.2.2 1 (by decide) 1 (by decide)
  rw [if_neg (by decide)] at h2
  exact h2

/-- C2 counterexample: for a 7-wide, 7-high source and factor 5 the
    generic path accumulates column x = 5 into scratch cell 5/5 = 1, but
    the scratch row has only width/factor = 1 cell; and its outer loop
    reads source row 9, past the 7 rows of the source.  The accesses do
    not stay in bounds when the factor does not divide the dimensions. -/
theorem decimate_generic_oob_counterexample :
    1 ∈ decimGenericScratchWrites 7 5 ∧ ¬ (1 < 7 / 5) ∧
    9 ∈ decimGenericSrcRows 7 5 ∧ ¬ (9 < 7) := by
  refine ⟨by decide, by decide, ?_, by decide⟩
  decide

/-- C2 amended: the generic decimation path produces a floor(width/f) by
    floor(height/f) buffer, and when f divides both width and height (so
    that there are no remainder rows or columns) every access is in
    bounds: scratch cells stay below width/f, source rows stay below
    height and source indices inside the source array, destination rows
    stay below height/f and destination stores inside the destination
    array.  When f does not divide the dimensions the accesses overrun,
    as the counterexample shows, instead of the remainder being silently
    dropped. -/
theorem decimate_generic_access_spec (im : image_u8) (factor : Nat)
    (hf : 0 < factor) (hw : factor ∣ im.width) (hh : factor ∣ im.height)
    (h2 : factor ≠ 2) (h3 : factor ≠ 3) (h4 : factor ≠ 4)
    (hws : im.width ≤ im.stride) (hlen : im.buf.length = im.stride * im.height) :
    (image_u8_decimate im factor).width = im.width / factor ∧
    (image_u8_decimate im factor).height = im.height / factor ∧
    (∀ i ∈ decimGenericScratchWrites im.width factor, i < im.width / factor) ∧
    (∀ r ∈ decimGenericSrcRows im.height factor, r < im.height) ∧
    (∀ r ∈ decimGenericSrcRows im.height factor, ∀ x < im.width,
      r * im.stride + x < im.buf.length) ∧
    (∀ r ∈ decimGenericDestRows im.height factor, r < im.height / factor) ∧
    (∀ p ∈ decimGenericWrites im factor (image_u8_decimate im factor).stride,
      p.1 < (image_u8_decimate im factor).buf.length) := by
  have hrow : ∀ r ∈ decimGenericSrcRows im.height factor, r < im.height := by
    intro r hr
    rw [decimGenericSrcRows, mem_flatList] at hr
    obtain ⟨l, hl, hrl⟩ := hr
    obtain ⟨t, ht, rfl⟩ := List.mem_map.mp hl
    obtain ⟨dy, hdy, rfl⟩ := List.mem_map.mp hrl
    rw [List.mem_range, ceil_div_of_dvd im.height factor hf hh] at ht
    rw [List.mem_range] at hdy
    obtain ⟨q, hq⟩ := hh
    rw [hq, Nat.mul_div_cancel_left q hf] at ht
    have hm : factor * (t + 1) ≤ factor * q := Nat.mul_le_mul_left factor (by omega)
    have he : factor * (t + 1) = factor * t + factor := by ring
    omega
  refine ⟨rfl, rfl, ?_, hrow, ?_, ?_, ?_⟩
  · intro i hi
    rw [decimGenericScratchWrites] at hi
    obtain ⟨x, hx, rfl⟩ := List.mem_map.mp hi
    rw [List.mem_range] at hx
    rw [Nat.div_lt_iff_lt_mul hf]
    obtain ⟨q, hq⟩ := hw
    rw [hq, Nat.mul_div_cancel_left q hf]
    have hc : q * factor = factor * q := Nat.mul_comm q factor
    omega
  · intro r hr x hx
    have hrh := hrow r hr
    have hxs : x < im.stride := by omega
    have := rowcol_lt hrh hxs
    have hc : im.height * im.stride = im.stride * im.height :=
      Nat.mul_comm im.height im.stride
    omega
  · intro r hr
    rw [decimGenericDestRows] at hr
    obtain ⟨t, ht, rfl⟩ := List.mem_map.mp hr
    rw [List.mem_range, ceil_div_of_dvd im.height factor hf hh] at ht
    rw [Nat.mul_div_cancel_left t hf]
    exact ht
  · intro p hp
    have hds : (image_u8_decimate im factor).stride
        = alignedStride (im.width / factor) 96 := rfl
    have hblen : (image_u8_decimate im factor).buf.length
        = (im.height / factor) * alignedStride (im.width / factor) 96 := by
      rw [decimate_buf_generic im factor h2 h3 h4, length_setWrites, create_buf_len]
    rw [hds, decimGenericWrites_grid im factor _ hf, mem_flatList] at hp
    obtain ⟨l, hl, hpl⟩ := hp
    obtain ⟨t, ht, rfl⟩ := List.mem_map.mp hl
    obtain ⟨x, hx, hpe⟩ := List.mem_map.mp hpl
    rw [List.mem_range, ceil_div_of_dvd im.height factor hf hh] at ht
    rw [List.mem_range] at hx
    subst hpe
    simp only
    rw [hblen]
    exact rowcol_lt ht (Nat.lt_of_lt_of_le hx (alignedStride_ge _ _))

/-- Witness for decimate_generic_access_spec: a 10 by 10 source with
    stride 10, factor 5: destination is 2 by 2 and the scratch footprint
    stays below 2. -/
theorem decimate_generic_access_spec_witness :
    (image_u8_decimate ⟨10, 10, 10, List.replicate 100 0⟩ 5).width = 2 ∧
    ∀ i ∈ decimGenericScratchWrites 10 5, i < 10 / 5 := by
  have h := decimate_generic_access_spec ⟨10, 10, 10, List.replicate 100 0⟩ 5
    (by decide) (by decide) (by decide) (by decide) (by decide) (by decide)
    (by decide) (by decide)
  exact ⟨h.1, h.2.2.1⟩

----------------------------------------------------------------
-- image_u8_write_pnm (image_u8.c lines 206-231)
----------------------------------------------------------------

/-- Row payload of image_u8_write_pnm (line 220): the width bytes starting
    at offset y*stride of the backing array; stride padding is excluded by
    construction. -/
def pnmRow (im : image_u8) (y : Nat) : List Nat :=
  (im.buf.drop (y * im.stride)).take im.width

/-- Row-writing loop of image_u8_write_pnm (lines 219-224).  The fwrite
    outcome for each row is supplied by the oracle writeOk; a row whose
    write comes up short sets the result to -2 and stops (goto finish),
    otherwise the full row is emitted and the loop continues.  Returns the
    status and the list of completely written rows. -/
def writeRowsGo (im : image_u8) (writeOk : Nat → Bool) :
    List Nat → Int × List (List Nat)
  | [] => (0, [])
  | y :: ys =>
    if writeOk y then
      ((writeRowsGo im writeOk ys).1, pnmRow im y :: (writeRowsGo im writeOk ys).2)
    else (-2, [])

/-- image_u8_write_pnm (lines 206-231).  The fopen outcome is supplied by
    the oracle openOk: on failure the status is -1 and nothing is written;
    otherwise the fixed 3-line ASCII header P5, width height, 255 is
    emitted (line 217) followed by the rows. -/
def image_u8_write_pnm (im : image_u8) (openOk : Bool) (writeOk : Nat → Bool) :
    Int × List String × List (List Nat) :=
  if openOk then
    ((writeRowsGo im writeOk (List.range im.height)).1,
     ["P5", toString im.width ++ " " ++ toString im.height, "255"],
     (writeRowsGo im writeOk (List.range im.height)).2)
  else (-1, [], [])

theorem writeRowsGo_all_ok (im : image_u8) (writeOk : Nat → Bool) (l : List Nat)
    (h : ∀ y ∈ l, writeOk y = true) :
    writeRowsGo im writeOk l = (0, l.map (pnmRow im)) := by
  induction l with
  | nil => rfl
  | cons a t ih =>
    rw [writeRowsGo, if_pos (h a (by simp)), ih (fun y hy => h y (by simp [hy])),
      List.map_cons]

theorem writeRowsGo_fail (im : image_u8) (writeOk : Nat → Bool) (l : List Nat)
    (h : ∃ y ∈ l, writeOk y = false) :
    (writeRowsGo im writeOk l).1 = -2 := by
  induction l with
  | nil => simp at h
  | cons a t ih =>
    obtain ⟨y, hy, hyf⟩ := h
    by_cases ha : writeOk a = true
    · rw [writeRowsGo, if_pos ha]
      rcases List.mem_cons.mp hy with rfl | hyt
      · rw [ha] at hyf; cases hyf
      · exact ih ⟨y, hyt, hyf⟩
    · rw [writeRowsGo, if_neg ha]

theorem pnmRow_length (im : image_u8) (hws : im.width ≤ im.stride)
    (hlen : im.buf.length = im.stride * im.height)
    (y : Nat) (hy : y < im.height) : (pnmRow im y).length = im.width := by
  rw [pnmRow, List.length_take, List.length_drop, hlen]
  have h1 : (y + 1) * im.stride ≤ im.height * im.stride :=
    Nat.mul_le_mul_right _ (by omega)
  have h2 : (y + 1) * im.stride = y * im.stride + im.stride := by ring
  have hc : im.stride * im.height = im.height * im.stride :=
    Nat.mul_comm im.stride im.height
  omega

/-- C5: encoding emits the fixed 3-line ASCII header and exactly height
    rows of exactly width raw bytes each, never the stride padding; the
    status is the distinguished negative -1 when the destination cannot
    be opened, the distinguished negative -2 when a row write comes up
    short, and the non-negative 0 when every row is written. -/
theorem write_pnm_spec (im : image_u8) (openOk : Bool) (writeOk : Nat → Bool)
    (hws : im.width ≤ im.stride) (hlen : im.buf.length = im.stride * im.height) :
    (openOk = false →
      image_u8_write_pnm im openOk writeOk = (-1, [], [])) ∧
    (openOk = true → (∀ y < im.height, writeOk y = true) →
      (image_u8_write_pnm im openOk writeOk).1 = 0 ∧
      (image_u8_write_pnm im openOk writeOk).2.1 =
        ["P5", toString im.width ++ " " ++ toString im.height, "255"] ∧
      (image_u8_write_pnm im openOk writeOk).2.2 =
        (List.range im.height).map (pnmRow im) ∧
      ∀ row ∈ (image_u8_write_pnm im openOk writeOk).2.2,
        row.length = im.width) ∧
    (openOk = true → (∃ y < im.height, writeOk y = false) →
      (image_u8_write_pnm im openOk writeOk).1 = -2) ∧
    ((-1 : Int) < 0 ∧ (-2 : Int) < 0 ∧ (-1 : Int) ≠ -2 ∧ (0 : Int) ≥ 0) := by
  refine ⟨?_, ?_, ?_, by norm_num, by norm_num, by norm_num, le_refl 0⟩
  · intro ho
    rw [image_u8_write_pnm, ho, if_neg (by simp)]
  · intro ho hall
    have hgo := writeRowsGo_all_ok im writeOk (List.range im.height)
      (fun y hy => hall y (List.mem_range.mp hy))
    rw [image_u8_write_pnm, ho, if_pos rfl, hgo]
    refine ⟨rfl, rfl, rfl, ?_⟩
    intro row hrow
    obtain ⟨y, hy, rfl⟩ := List.mem_map.mp hrow
    exact pnmRow_length im hws hlen y (List.mem_range.mp hy)
  · intro ho hex
    obtain ⟨y, hy, hyf⟩ := hex
    have hgo := writeRowsGo_fail im writeOk (List.range im.height)
      ⟨y, List.mem_range.mpr hy, hyf⟩
    rw [image_u8_write_pnm, ho, if_pos rfl]
    exact hgo

/-- Witness for write_pnm_spec on a 2 by 1 buffer with stride 3: success
    yields status 0 with the single padding-free row, a failed open
    yields -1, a short write yields -2. -/
theorem write_pnm_spec_witness :
    (image_u8_write_pnm ⟨2, 1, 3, [5, 6, 9]⟩ true (fun _ => true)).1 = 0 ∧
    (image_u8_write_pnm ⟨2, 1, 3, [5, 6, 9]⟩ true (fun _ => true)).2.2 = [[5, 6]] ∧
    (image_u8_write_pnm ⟨2, 1, 3, [5, 6, 9]⟩ false (fun _ => true)).1 = -1 ∧
    (image_u8_write_pnm ⟨2, 1, 3, [5, 6, 9]⟩ true (fun _ => false)).1 = -2 := by
  have h1 := write_pnm_spec ⟨2, 1, 3, [5, 6, 9]⟩ true (fun _ => true)
    (by decide) (by decide)
  have h2 := write_pnm_spec ⟨2, 1, 3, [5, 6, 9]⟩ false (fun _ => true)
    (by decide) (by decide)
  have h3 := write_pnm_spec ⟨2, 1, 3, [5, 6, 9]⟩ true (fun _ => false)
    (by decide) (by decide)
  have hok := h1.2.1 rfl (by intro y hy; rfl)
  refine ⟨hok.1, ?_, ?_, ?_⟩
  · rw [hok.2.2.1]; rfl
  · rw [h2.1 rfl]
  · exact h3.2.2.1 rfl ⟨0, by decide, rfl⟩

----------------------------------------------------------------
-- Drawing primitives (image_u8.c lines 233-292)
----------------------------------------------------------------

/-- Array-index bound for a guarded row-major store with Int coordinates. -/
theorem idx_lt_int {w h s x y : Int} (hws : w ≤ s) (hx0 : 0 ≤ x) (hxw : x < w)
    (hy0 : 0 ≤ y) (hyh : y < h) : 0 ≤ y * s + x ∧ y * s + x < s * h := by
  have hs : 0 ≤ s := by omega
  constructor
  · have := mul_nonneg hy0 hs
    omega
  · have h1 : (y + 1) * s = y * s + s := by ring
    have h2 : (y + 1) * s ≤ h * s := mul_le_mul_of_nonneg_right (by omega) hs
    have h3 : h * s = s * h := mul_comm h s
    omega

/-- Write footprint of one iteration of the image_u8_draw_circle scan
    (lines 238-247): the squared-distance test (line 239-241, computed on
    float centre and radius, modelled in the rationals) skips pixels
    outside the disk, and the bounds check of line 243 guards the single
    store of line 245.  The float loop bounds of lines 237-238 only choose
    which integer pixels (x, y) are visited, so the footprint is stated
    for an arbitrary visited pixel. -/
def drawCircleStepWrites (im : image_u8) (x0 y0 r2 : ℚ) (x y : Int) : List Int :=
  if ((x : ℚ) - x0) * ((x : ℚ) - x0) + ((y : ℚ) - y0) * ((y : ℚ) - y0) > r2 then []
  else if 0 ≤ x ∧ x < (im.width : Int) ∧ 0 ≤ y ∧ y < (im.height : Int) then
    [y * (im.stride : Int) + x]
  else []

/-- Write footprint of one iteration of the image_u8_draw_line walk
    (lines 278-290): the clip test of line 281 guards the store at idx,
    but when width exceeds 1 the stores at idx+1, idx+stride and
    idx+1+stride of lines 287-289 follow with no further check. -/
def drawLineStepWrites (im : image_u8) (wd x y : Int) : List Int :=
  if x < 0 ∨ y < 0 ∨ x ≥ (im.width : Int) ∨ y ≥ (im.height : Int) then []
  else if wd > 1 then
    [y * (im.stride : Int) + x, y * (im.stride : Int) + x + 1,
     y * (im.stride : Int) + x + (im.stride : Int),
     y * (im.stride : Int) + x + 1 + (im.stride : Int)]
  else [y * (im.stride : Int) + x]

/-- Write footprint of image_u8_draw_line (lines 271-292).  The first
    iteration of the walk has f = 0, so it plots exactly the truncation
    of the endpoint (x1, y1): x1 + (x0 - x1) * 0 equals x1 even in IEEE
    float arithmetic.  The following samples depend on the float step
    delta = 0.5/dist and are supplied abstractly as mids. -/
def image_u8_draw_line_writes (im : image_u8) (x0 y0 x1 y1 : ℚ) (wd : Int)
    (mids : List (Int × Int)) : List Int :=
  drawLineStepWrites im wd (qtrunc x1) (qtrunc y1) ++
    flatList (mids.map fun p => drawLineStepWrites im wd p.1 p.2)

/-- C6 counterexample: on a 4x4 buffer with stride 4 (array of 16 bytes),
    drawing the line from (0,3) to (3,3) with width 2 writes index 19 at
    its very first sample (3,3): the right/below neighbor stores of the
    thick path are not bounds checked, so draw_line does not write only
    inside the backing array. -/
theorem draw_line_oob_counterexample :
    (19 : Int) ∈ image_u8_draw_line_writes ⟨4, 4, 4, List.replicate 16 0⟩
      0 3 3 3 2 [] ∧
    ¬ ((19 : Int) < 4 * 4) := by
  constructor
  · decide
  · decide

/-- C6 amended: draw_circle writes only inside the backing array for every
    centre, radius and visited pixel, and draw_line does so whenever its
    width is at most 1; with width above 1 the unchecked neighbor stores
    can leave the array (see the counterexample), like draw_annulus which
    has no bounds check at all. -/
theorem draw_bounds_spec (im : image_u8) (hws : im.width ≤ im.stride) :
    (∀ x0 y0 r2 : ℚ, ∀ x y : Int, ∀ i ∈ drawCircleStepWrites im x0 y0 r2 x y,
      0 ≤ i ∧ i < (im.stride : Int) * im.height) ∧
    (∀ x0 y0 x1 y1 : ℚ, ∀ wd : Int, wd ≤ 1 → ∀ mids : List (Int × Int),
      ∀ i ∈ image_u8_draw_line_writes im x0 y0 x1 y1 wd mids,
        0 ≤ i ∧ i < (im.stride : Int) * im.height) := by
  have hwsi : (im.width : Int) ≤ (im.stride : Int) := by exact_mod_cast hws
  have hstep : ∀ wd : Int, wd ≤ 1 → ∀ x y : Int,
      ∀ i ∈ drawLineStepWrites im wd x y,
        0 ≤ i ∧ i < (im.stride : Int) * im.height := by
    intro wd hwd x y i hi
    rw [drawLineStepWrites] at hi
    by_cases hclip : x < 0 ∨ y < 0 ∨ x ≥ (im.width : Int) ∨ y ≥ (im.height : Int)
    · rw [if_pos hclip] at hi
      simp at hi
    · rw [if_neg hclip, if_neg (by omega)] at hi
      push_neg at hclip
      obtain ⟨hx0, hy0, hxw, hyh⟩ := hclip
      rw [List.mem_singleton] at hi
      subst hi
      exact idx_lt_int hwsi hx0 hxw hy0 hyh
  constructor
  · intro x0 y0 r2 x y i hi
    rw [drawCircleStepWrites] at hi
    by_cases hd : ((x : ℚ) - x0) * ((x : ℚ) - x0) + ((y : ℚ) - y0) * ((y : ℚ) - y0) > r2
    · rw [if_pos hd] at hi
      simp at hi
    · rw [if_neg hd] at hi
      by_cases hb : 0 ≤ x ∧ x < (im.width : Int) ∧ 0 ≤ y ∧ y < (im.height : Int)
      · rw [if_pos hb] at hi
        rw [List.mem_singleton] at hi
        subst hi
        exact idx_lt_int hwsi hb.1 hb.2.1 hb.2.2.1 hb.2.2.2
      · rw [if_neg hb] at hi
        simp at hi
  · intro x0 y0 x1 y1 wd hwd mids i hi
    rw [image_u8_draw_line_writes, List.mem_append] at hi
    rcases hi with hi | hi
    · exact hstep wd hwd _ _ i hi
    · rw [mem_flatList] at hi
      obtain ⟨l, hl, hil⟩ := hi
      obtain ⟨p, hp, rfl⟩ := List.mem_map.mp hl
      exact hstep wd hwd p.1 p.2 i hil

/-- Witness for draw_bounds_spec: on a concrete 4x4 buffer, the single
    circle-body store at pixel (1,1) is index 5, inside the 16-byte
    array, and a width-1 line sample at (3,3) stays inside as well. -/
theorem draw_bounds_spec_witness :
    ((0 : Int) ≤ 5 ∧ (5 : Int) < 16) ∧ ((0 : Int) ≤ 15 ∧ (15 : Int) < 16) := by
  have h := draw_bounds_spec ⟨4, 4, 4, List.replicate 16 0⟩ (by decide)
  have hmem : (5 : Int) ∈ drawCircleStepWrites ⟨4, 4, 4, List.replicate 16 0⟩
      0 0 100 1 1 := by
    rw [drawCircleStepWrites, if_neg (by norm_num), if_pos (by norm_num)]
    simp
  have hmem2 : (15 : Int) ∈ drawLineStepWrites ⟨4, 4, 4, List.replicate 16 0⟩
      1 3 3 := by
    rw [drawLineStepWrites, if_neg (by norm_num), if_neg (by norm_num)]
    simp
  have h1 := h.1 0 0 100 1 1 5 hmem
  have h2 := h.2 0 3 3 3 1 (by norm_num) [] 15
    (by rw [image_u8_draw_line_writes, List.mem_append]; exact Or.inl hmem2)
  constructor
  · exact ⟨h1.1, by simpa using h1.2⟩
  · exact ⟨h2.1, by simpa using h2.2⟩

/-- C7 counterexample: on a 10x10 buffer with stride 10, a width-2 line
    sample at pixel (2,2) writes index 33 = (3,3), the below-right
    diagonal neighbor, which is none of the nearest pixel 22, its right
    neighbor 23, or its below neighbor 32: the thick path plots four
    pixels, not three. -/
theorem draw_line_thick_counterexample :
    (33 : Int) ∈ drawLineStepWrites ⟨10, 10, 10, List.replicate 100 0⟩ 2 2 2 ∧
    (33 : Int) ≠ 2 * 10 + 2 ∧ (33 : Int) ≠ 2 * 10 + 2 + 1 ∧
    (33 : Int) ≠ 2 * 10 + 2 + 10 := by
  refine ⟨by decide, by decide, by decide, by decide⟩

/-- C7 amended: at each in-bounds step of the walk with width above 1,
    the set of written array cells is exactly the nearest pixel, its
    right neighbor, its below neighbor, and its below-right diagonal
    neighbor (idx, idx+1, idx+stride, idx+1+stride). -/
theorem draw_line_thick_spec (im : image_u8) (wd x y : Int)
    (hwd : 1 < wd) (hx0 : 0 ≤ x) (hxw : x < (im.width : Int))
    (hy0 : 0 ≤ y) (hyh : y < (im.height : Int)) :
    drawLineStepWrites im wd x y =
      [y * (im.stride : Int) + x, y * (im.stride : Int) + x + 1,
       y * (im.stride : Int) + x + (im.stride : Int),
       y * (im.stride : Int) + x + 1 + (im.stride : Int)] := by
  rw [drawLineStepWrites, if_neg (by omega), if_pos hwd]

/-- Witness for draw_line_thick_spec at pixel (2,2) of a 10x10 buffer:
    the four written indices are 22, 23, 32 and 33. -/
theorem draw_line_thick_spec_witness :
    drawLineStepWrites ⟨10, 10, 10, List.replicate 100 0⟩ 2 2 2 =
      [22, 23, 32, 33] :=
  (draw_line_thick_spec ⟨10, 10, 10, List.replicate 100 0⟩ 2 2 2
    (by decide) (by decide) (by decide) (by decide) (by decide)).trans (by decide)

----------------------------------------------------------------
-- image_u8_fill_line_max (image_u8.c lines 705-759)
----------------------------------------------------------------

/-- Per-pixel update of image_u8_fill_line_max (lines 746-756): the
    squared distance of the pixel to the clamped closest point on the
    segment (a float quantity, passed here as the rational d2) is scaled
    into a LUT index by a C int cast; indices at or past nvalues are
    skipped, and otherwise the looked-up intensity is stored only when it
    exceeds the pixel's current value. -/
def fillLineMaxStep (im : image_u8) (lut : image_u8_lut) (d2 : ℚ)
    (ix iy : Nat) : image_u8 :=
  if qtrunc (d2 * lut.scale) ≥ (lut.nvalues : Int) then im
  else if lut.values.getD (qtrunc (d2 * lut.scale)).toNat 0 >
      im.buf.getD (iy * im.stride + ix) 0 then
    setPx im (iy * im.stride + ix)
      (lut.values.getD (qtrunc (d2 * lut.scale)).toNat 0)
  else im

/-- image_u8_fill_line_max (lines 705-759).  The geometric scan of lines
    707-744 (LUT radius, direction cosines from atan2, clamped projection
    onto the segment) runs in floating point; it only selects which pixels
    (ix, iy) are visited and which squared distance each one gets, so the
    scan rectangle is passed as the pixel list pxs and the distance
    computation as the function d2.  The update of lines 746-756 is
    translated exactly; the claimed properties hold for every pxs and d2,
    hence for the values the float scan produces. -/
def image_u8_fill_line_max (im : image_u8) (lut : image_u8_lut)
    (pxs : List (Nat × Nat)) (d2 : Nat → Nat → ℚ) : image_u8 :=
  pxs.foldl (fun acc p => fillLineMaxStep acc lut (d2 p.1 p.2) p.1 p.2) im

/-- Contribution of one visited pixel: the looked-up intensity when the
    scaled squared distance indexes into the table, and nothing (zero,
    the identity of max) when the index is at or past nvalues. -/
def lutContrib (lut : image_u8_lut) (d2v : ℚ) : Nat :=
  if qtrunc (d2v * lut.scale) ≥ (lut.nvalues : Int) then 0
  else lut.values.getD (qtrunc (d2v * lut.scale)).toNat 0

theorem getD_zero_of_le_length (l : List Nat) (q : Nat) (h : l.length ≤ q) :
    l.getD q 0 = 0 := by
  induction l generalizing q with
  | nil => cases q <;> simp
  | cons a t ih =>
    cases q with
    | zero => simp at h
    | succ n => simpa using ih n (by simpa using h)

theorem fillLineMaxStep_fields (im : image_u8) (lut : image_u8_lut) (d2v : ℚ)
    (ix iy : Nat) :
    (fillLineMaxStep im lut d2v ix iy).width = im.width ∧
    (fillLineMaxStep im lut d2v ix iy).height = im.height ∧
    (fillLineMaxStep im lut d2v ix iy).stride = im.stride ∧
    (fillLineMaxStep im lut d2v ix iy).buf.length = im.buf.length := by
  rw [fillLineMaxStep]
  by_cases h1 : qtrunc (d2v * lut.scale) ≥ (lut.nvalues : Int)
  · rw [if_pos h1]; exact ⟨rfl, rfl, rfl, rfl⟩
  · rw [if_neg h1]
    by_cases h2 : lut.values.getD (qtrunc (d2v * lut.scale)).toNat 0 >
        im.buf.getD (iy * im.stride + ix) 0
    · rw [if_pos h2]
      exact ⟨rfl, rfl, rfl, by simp [setPx]⟩
    · rw [if_neg h2]; exact ⟨rfl, rfl, rfl, rfl⟩

theorem fillLineMaxStep_getD (im : image_u8) (lut : image_u8_lut) (d2v : ℚ)
    (ix iy q : Nat) :
    (fillLineMaxStep im lut d2v ix iy).buf.getD q 0 =
      if iy * im.stride + ix = q ∧ q < im.buf.length then
        max (im.buf.getD q 0) (lutContrib lut d2v)
      else im.buf.getD q 0 := by
  rw [fillLineMaxStep, lutContrib]
  by_cases h1 : qtrunc (d2v * lut.scale) ≥ (lut.nvalues : Int)
  · rw [if_pos h1, if_pos h1]
    by_cases hq : iy * im.stride + ix = q ∧ q < im.buf.length
    · rw [if_pos hq]
      simp
    · rw [if_neg hq]
  · rw [if_neg h1, if_neg h1]
    by_cases h2 : lut.values.getD (qtrunc (d2v * lut.scale)).toNat 0 >
        im.buf.getD (iy * im.stride + ix) 0
    · rw [if_pos h2]
      by_cases hq : iy * im.stride + ix = q ∧ q < im.buf.length
      · rw [if_pos hq]
        obtain ⟨hqe, hql⟩ := hq
        rw [setPx]
        simp only
        rw [hqe] at h2 ⊢
        rw [getD_set_self _ _ _ hql]
        omega
      · rw [if_neg hq, setPx]
        simp only
        by_cases hqe : iy * im.stride + ix = q
        · have hql : ¬ q < im.buf.length := fun hc => hq ⟨hqe, hc⟩
          rw [hqe]
          rw [getD_zero_of_le_length _ q (by rw [List.length_set]; omega),
            getD_zero_of_le_length _ q (by omega)]
        · exact getD_set_other _ _ _ _ hqe
    · rw [if_neg h2]
      by_cases hq : iy * im.stride + ix = q ∧ q < im.buf.length
      · rw [if_pos hq]
        obtain ⟨hqe, hql⟩ := hq
        rw [hqe] at h2
        omega
      · rw [if_neg hq]

theorem fill_fields (im : image_u8) (lut : image_u8_lut)
    (pxs : List (Nat × Nat)) (d2 : Nat → Nat → ℚ) :
    (image_u8_fill_line_max im lut pxs d2).width = im.width ∧
    (image_u8_fill_line_max im lut pxs d2).height = im.height ∧
    (image_u8_fill_line_max im lut pxs d2).stride = im.stride ∧
    (image_u8_fill_line_max im lut pxs d2).buf.length = im.buf.length := by
  induction pxs generalizing im with
  | nil => exact ⟨rfl, rfl, rfl, rfl⟩
  | cons p t ih =>
    have hstep := fillLineMaxStep_fields im lut (d2 p.1 p.2) p.1 p.2
    have hrec := ih (fillLineMaxStep im lut (d2 p.1 p.2) p.1 p.2)
    exact ⟨hrec.1.trans hstep.1, hrec.2.1.trans hstep.2.1,
      hrec.2.2.1.trans hstep.2.2.1, hrec.2.2.2.trans hstep.2.2.2⟩

theorem fill_getD (im : image_u8) (lut : image_u8_lut)
    (pxs : List (Nat × Nat)) (d2 : Nat → Nat → ℚ) (q : Nat)
    (hq : q < im.buf.length) :
    (image_u8_fill_line_max im lut pxs d2).buf.getD q 0 =
      max (im.buf.getD q 0)
        (((pxs.filter fun p => p.2 * im.stride + p.1 = q).map
          fun p => lutContrib lut (d2 p.1 p.2)).foldr max 0) := by
  induction pxs generalizing im with
  | nil =>
    simp only [image_u8_fill_line_max, List.foldl_nil, List.filter_nil,
      List.map_nil, List.foldr_nil]
    exact (Nat.max_zero _).symm
  | cons p t ih =>
    have hstep := fillLineMaxStep_fields im lut (d2 p.1 p.2) p.1 p.2
    have hq' : q < (fillLineMaxStep im lut (d2 p.1 p.2) p.1 p.2).buf.length := by
      rw [hstep.2.2.2]; exact hq
    have hrec := ih (fillLineMaxStep im lut (d2 p.1 p.2) p.1 p.2) hq'
    have hfold : (image_u8_fill_line_max im lut (p :: t) d2)
        = image_u8_fill_line_max (fillLineMaxStep im lut (d2 p.1 p.2) p.1 p.2)
            lut t d2 := rfl
    rw [hfold, hrec, hstep.2.2.1,
      fillLineMaxStep_getD im lut (d2 p.1 p.2) p.1 p.2 q]
    by_cases he : p.2 * im.stride + p.1 = q
    · rw [if_pos ⟨he, hq⟩]
      have hfil : (p :: t).filter (fun p => p.2 * im.stride + p.1 = q)
          = p :: t.filter (fun p => p.2 * im.stride + p.1 = q) := by
        simp [List.filter_cons, he]
      rw [hfil, List.map_cons, List.foldr_cons, max_assoc]
    · rw [if_neg (fun hc => he hc.1)]
      have hfil : (p :: t).filter (fun p => p.2 * im.stride + p.1 = q)
          = t.filter (fun p => p.2 * im.stride + p.1 = q) := by
        simp [List.filter_cons, he]
      rw [hfil]

/-- C8: fill_line_max never decreases any pixel: for every buffer, LUT,
    visited pixel list and distance assignment, every array cell only
    grows; each in-range cell ends at the maximum of its old value and
    the contributions of the visits that cover it, where a visit whose
    scaled squared distance reaches an index at or past nvalues
    contributes nothing; and the buffer shape is untouched. -/
theorem fill_line_max_spec (im : image_u8) (lut : image_u8_lut)
    (pxs : List (Nat × Nat)) (d2 : Nat → Nat → ℚ) :
    (image_u8_fill_line_max im lut pxs d2).width = im.width ∧
    (image_u8_fill_line_max im lut pxs d2).height = im.height ∧
    (image_u8_fill_line_max im lut pxs d2).stride = im.stride ∧
    (image_u8_fill_line_max im lut pxs d2).buf.length = im.buf.length ∧
    (∀ q, (image_u8_fill_line_max im lut pxs d2).buf.getD q 0 ≥
      im.buf.getD q 0) ∧
    (∀ q, q < im.buf.length →
      (image_u8_fill_line_max im lut pxs d2).buf.getD q 0 =
        max (im.buf.getD q 0)
          (((pxs.filter fun p => p.2 * im.stride + p.1 = q).map
            fun p => lutContrib lut (d2 p.1 p.2)).foldr max 0)) ∧
    (∀ d2v : ℚ, qtrunc (d2v * lut.scale) ≥ (lut.nvalues : Int) →
      lutContrib lut d2v = 0) := by
  have hf := fill_fields im lut pxs d2
  refine ⟨hf.1, hf.2.1, hf.2.2.1, hf.2.2.2, ?_, fill_getD im lut pxs d2, ?_⟩
  · intro q
    by_cases hq : q < im.buf.length
    · rw [fill_getD im lut pxs d2 q hq]
      exact le_max_left _ _
    · have e1 : (image_u8_fill_line_max im lut pxs d2).buf.getD q 0 = 0 :=
        getD_zero_of_le_length _ q (by rw [hf.2.2.2]; omega)
      have e2 : im.buf.getD q 0 = 0 := getD_zero_of_le_length _ q (by omega)
      rw [e1, e2]
  · intro d2v hd
    rw [lutContrib, if_pos hd]

/-- Witness for fill_line_max_spec on a 2 by 1 buffer with bytes 5 and 0,
    a 4-entry LUT with scale 1, visits at both pixels with squared
    distances 0 and 1: pixel 0 rises to max 5 9 = 9 and pixel 1 to 8. -/
theorem fill_line_max_spec_witness :
    (image_u8_fill_line_max ⟨2, 1, 2, [5, 0]⟩ ⟨1, 4, [9, 8, 7, 6]⟩
      [(0, 0), (1, 0)] (fun ix _ => (ix : ℚ))).buf.getD 0 0 = 9 ∧
    (image_u8_fill_line_max ⟨2, 1, 2, [5, 0]⟩ ⟨1, 4, [9, 8, 7, 6]⟩
      [(0, 0), (1, 0)] (fun ix _ => (ix : ℚ))).buf.getD 1 0 = 8 := by
  have h := fill_line_max_spec ⟨2, 1, 2, [5, 0]⟩ ⟨1, 4, [9, 8, 7, 6]⟩
    [(0, 0), (1, 0)] (fun ix _ => (ix : ℚ))
  have h0 := h.2.2.2.2.2.1 0 (by decide)
  have h1 := h.2.2.2.2.2.1 1 (by decide)
  rw [h0, h1]
  constructor
  · norm_num [lutContrib, qtrunc, List.filter]
  · norm_num [lutContrib, qtrunc, List.filter]


----------------------------------------------------------------
-- Binary32 rounding model for image_u8_rotate
----------------------------------------------------------------

/-- Round a rational to the nearest integer, ties to even, the IEEE 754
    default rounding applied to a scaled significand. -/
def rndNE (x : ℚ) : Int :=
  if x - ⌊x⌋ < 1 / 2 then ⌊x⌋
  else if x - ⌊x⌋ > 1 / 2 then ⌊x⌋ + 1
  else if ⌊x⌋ % 2 = 0 then ⌊x⌋ else ⌊x⌋ + 1

/-- Binary exponent search, upward: for q at least 1, the number of
    halvings until the value drops below 2, i.e. the e with 2^e <= q <
    2^(e+1).  Fuel-bounded structural recursion; fuel 64 covers every
    magnitude below 2^64, far beyond anything the rotation pipeline can
    produce from int32 dimensions and direction cosines in [-1, 1]. -/
def expo2Up : Nat → ℚ → Int
  | 0, _ => 0
  | fuel + 1, q => if q < 2 then 0 else expo2Up fuel (q / 2) + 1

/-- Binary exponent search, downward: for q below 1, the (negative) e
    with 2^e <= q < 2^(e+1), found by doubling. -/
def expo2Down : Nat → ℚ → Int
  | 0, _ => 0
  | fuel + 1, q => if 1 ≤ q then 0 else expo2Down fuel (q * 2) - 1

/-- Binary exponent of a positive rational. -/
def floatExp (q : ℚ) : Int :=
  if 1 ≤ q then expo2Up 64 q else expo2Down 64 q

/-- Round a rational to the nearest binary32 value (24-bit significand,
    round to nearest, ties to even).  Scale into the significand range by
    the binary exponent, round to an integer significand, scale back.
    Overflow to infinity and subnormal underflow are not modelled; they
    are out of reach of the rotation pipeline for int32 dimensions. -/
def roundB32 (q : ℚ) : ℚ :=
  if q = 0 then 0
  else (rndNE (q * 2 ^ ((23 : Int) - floatExp |q|)) : ℚ)
    * 2 ^ (floatExp |q| - (23 : Int))

/-- A C float addition: exact sum, then binary32 rounding of the result. -/
def fadd (a b : ℚ) : ℚ := roundB32 (a + b)

/-- A C float subtraction. -/
def fsub (a b : ℚ) : ℚ := roundB32 (a - b)

/-- A C float multiplication. -/
def fmul (a b : ℚ) : ℚ := roundB32 (a * b)

theorem expo2Up_le (fuel : Nat) (q : ℚ) (n : Nat)
    (hq : q < 2 ^ (n + 1)) (hn : n ≤ fuel) : expo2Up fuel q ≤ (n : Int) := by
  induction fuel generalizing q n with
  | zero =>
    rw [expo2Up]
    exact Int.natCast_nonneg n
  | succ f ih =>
    rw [expo2Up]
    by_cases h2 : q < 2
    · rw [if_pos h2]
      exact Int.natCast_nonneg n
    · rw [if_neg h2]
      push_neg at h2
      have hn1 : 1 ≤ n := by
        by_contra hc
        push_neg at hc
        have hn0 : n = 0 := by omega
        rw [hn0] at hq
        norm_num at hq
        linarith
      have hq2 : q / 2 < 2 ^ ((n - 1) + 1) := by
        have he : ((n : Nat) - 1) + 1 = n := by omega
        rw [he]
        rw [pow_succ] at hq
        linarith [(div_lt_iff (by norm_num : (0:ℚ) < 2)).mpr hq]
      have hrec := ih (q / 2) (n - 1) hq2 (by omega)
      have hcast : ((n - 1 : Nat) : Int) = (n : Int) - 1 := by omega
      omega

theorem expo2Down_nonpos (fuel : Nat) (q : ℚ) : expo2Down fuel q ≤ 0 := by
  induction fuel generalizing q with
  | zero => rw [expo2Down]
  | succ f ih =>
    rw [expo2Down]
    by_cases h1 : 1 ≤ q
    · rw [if_pos h1]
    · rw [if_neg h1]
      have := ih (q * 2)
      omega

theorem rndNE_intCast (n : Int) : rndNE (n : ℚ) = n := by
  rw [rndNE, Int.floor_intCast]
  norm_num

theorem roundB32_zero : roundB32 0 = 0 := by
  rw [roundB32, if_pos rfl]

/-- Binary32 rounding is the identity on every half-integer of magnitude
    below 2^23: such a value has an exact binary32 representation (its
    binade has spacing at most 1/2), so the scaled significand is an
    integer and rounds to itself. -/
theorem roundB32_eq_self (q : ℚ) (k : Int) (hk : q * 2 = (k : ℚ))
    (habs : |q| < 2 ^ 23) : roundB32 q = q := by
  by_cases hq : q = 0
  · rw [hq, roundB32_zero]
  · rw [roundB32, if_neg hq]
    have he : floatExp |q| ≤ 22 := by
      rw [floatExp]
      by_cases h1 : 1 ≤ |q|
      · rw [if_pos h1]
        have : |q| < 2 ^ (22 + 1) := by norm_num at habs ⊢; linarith
        exact expo2Up_le 64 |q| 22 this (by norm_num)
      · rw [if_neg h1]
        calc expo2Down 64 |q| ≤ 0 := expo2Down_nonpos 64 |q|
          _ ≤ 22 := by norm_num
    have hm : q * (2 : ℚ) ^ ((23 : Int) - floatExp |q|)
        = ((k * 2 ^ ((22 : Int) - floatExp |q|).toNat : Int) : ℚ) := by
      have h1 : (23 : Int) - floatExp |q|
          = 1 + ((((22 : Int) - floatExp |q|).toNat : Nat) : Int) := by omega
      rw [h1, zpow_add₀ (by norm_num : (2:ℚ) ≠ 0), zpow_one, zpow_natCast]
      push_cast
      rw [← hk]
      ring
    rw [hm, rndNE_intCast]
    rw [← hm]
    rw [mul_assoc, ← zpow_add₀ (by norm_num : (2:ℚ) ≠ 0)]
    have : (23 : Int) - floatExp |q| + (floatExp |q| - 23) = 0 := by omega
    rw [this, zpow_zero, mul_one]

/-- Binary32 rounding is the identity on natural numbers below 2^23. -/
theorem roundB32_natCast (n : Nat) (h : n < 8388608) :
    roundB32 (n : ℚ) = (n : ℚ) := by
  apply roundB32_eq_self (n : ℚ) (2 * n)
  · push_cast; ring
  · rw [abs_of_nonneg (by positivity)]
    norm_num
    exact_mod_cast h

----------------------------------------------------------------
-- image_u8_rotate (image_u8.c lines 417-470)
----------------------------------------------------------------

/-- The four corner points of the source rectangle (line 424), stored as
    float pairs: the int dimensions are converted to binary32, which
    rounds widths and heights at or above 2^24. -/
def rotateCorners (w h : Nat) : List (ℚ × ℚ) :=
  [(0, 0), (roundB32 (w : ℚ), 0),
   (roundB32 (w : ℚ), roundB32 (h : ℚ)), (0, roundB32 (h : ℚ))]

/-- Rotated corner x coordinate (lines 435-438): px = p[i][0] - icx and
    py = p[i][1] - icy are float subtractions against the float centre
    icx = iwidth/2.0 (the double halving is exact, the store to float
    rounds), and nx = px*c - py*s is evaluated float operation by float
    operation.  The direction cosines c and s are parameters: the model
    has no transcendental functions, and at angle 0 the library cos and
    sin return exactly 1 and 0. -/
def rotateNx (w h : Nat) (c s : ℚ) (p : ℚ × ℚ) : ℚ :=
  fsub (fmul (fsub p.1 (roundB32 ((w : ℚ) / 2))) c)
       (fmul (fsub p.2 (roundB32 ((h : ℚ) / 2))) s)

/-- Rotated corner y coordinate (line 439): ny = px*s + py*c. -/
def rotateNy (w h : Nat) (c s : ℚ) (p : ℚ × ℚ) : ℚ :=
  fadd (fmul (fsub p.1 (roundB32 ((w : ℚ) / 2))) s)
       (fmul (fsub p.2 (roundB32 ((h : ℚ) / 2))) c)

/-- Running minimum of the rotated corner x coordinates (lines 427, 441):
    the running minimum starts from the float constant 2139095040 the
    code uses in place of infinity (2^31 - 2^23, exactly representable);
    min itself is exact. -/
def rotateXmin (w h : Nat) (c s : ℚ) : ℚ :=
  (rotateCorners w h).foldl (fun acc p => min acc (rotateNx w h c s p))
    (2139095040 : ℚ)

/-- Running maximum of the rotated corner x coordinates (lines 428, 442). -/
def rotateXmax (w h : Nat) (c s : ℚ) : ℚ :=
  (rotateCorners w h).foldl (fun acc p => max acc (rotateNx w h c s p))
    (-2139095040 : ℚ)

/-- Running minimum of the rotated corner y coordinates (lines 429, 443). -/
def rotateYmin (w h : Nat) (c s : ℚ) : ℚ :=
  (rotateCorners w h).foldl (fun acc p => min acc (rotateNy w h c s p))
    (2139095040 : ℚ)

/-- Running maximum of the rotated corner y coordinates (lines 430, 444). -/
def rotateYmax (w h : Nat) (c s : ℚ) : ℚ :=
  (rotateCorners w h).foldl (fun acc p => max acc (rotateNy w h c s p))
    (-2139095040 : ℚ)

/-- Output width of image_u8_rotate (line 447): xmax - xmin is a float
    subtraction, ceil on the resulting value is exact, and the int cast
    of the integral ceil is exact. -/
def rotateOwidth (w h : Nat) (c s : ℚ) : Nat :=
  (⌈fsub (rotateXmax w h c s) (rotateXmin w h c s)⌉).toNat

/-- Output height of image_u8_rotate (line 447): ceil(ymax - ymin). -/
def rotateOheight (w h : Nat) (c s : ℚ) : Nat :=
  (⌈fsub (rotateYmax w h c s) (rotateYmin w h c s)⌉).toNat

/-- Destination pixel of image_u8_rotate (lines 453-465): the pixel
    centre sx = ox - owidth/2.0 + .5 is computed in double (exact for
    int32-ranged values) and stored to float with one rounding; the
    inverse mapping sums sx*c + sy*s + icx and -sx*s + sy*c + icy float
    operation by float operation, floors (exact on a float) and bounds
    checks the source coordinate, reading the source pixel or using the
    padding byte. -/
def rotateVal (im : image_u8) (c s : ℚ) (pad ow oh oy ox : Nat) : Nat :=
  let sx : ℚ := roundB32 ((ox : ℚ) - (ow : ℚ) / 2 + 1 / 2)
  let sy : ℚ := roundB32 ((oy : ℚ) - (oh : ℚ) / 2 + 1 / 2)
  let ix : Int := ⌊fadd (fadd (fmul sx c) (fmul sy s))
    (roundB32 ((im.width : ℚ) / 2))⌋
  let iy : Int := ⌊fadd (fadd (fmul (-sx) s) (fmul sy c))
    (roundB32 ((im.height : ℚ) / 2))⌋
  if 0 ≤ ix ∧ 0 ≤ iy ∧ ix < (im.width : Int) ∧ iy < (im.height : Int) then
    im.buf.getD (iy.toNat * im.stride + ix.toNat) 0
  else pad

/-- image_u8_rotate (lines 417-470).  The angle enters only through the
    direction cosines c = cos(-rad) and s = sin(-rad) of line 422, taken
    as parameters (see rotateNx); the output buffer is created with the
    bounding-box dimensions and every output pixel is filled by inverse
    mapping. -/
def image_u8_rotate (im : image_u8) (c s : ℚ) (pad : Nat) : image_u8 :=
  let ow := rotateOwidth im.width im.height c s
  let oh := rotateOheight im.width im.height c s
  let out := image_u8_create ow oh
  { out with
    buf := setWrites (flatList ((List.range oh).map fun oy =>
      (List.range ow).map fun ox =>
        (oy * out.stride + ox, rotateVal im c s pad ow oh oy ox))) out.buf }

theorem rotate_buf (im : image_u8) (c s : ℚ) (pad : Nat) :
    (image_u8_rotate im c s pad).buf =
      setWrites (flatList
        ((List.range (rotateOheight im.width im.height c s)).map fun oy =>
          (List.range (rotateOwidth im.width im.height c s)).map fun ox =>
            (oy * alignedStride (rotateOwidth im.width im.height c s) 96 + ox,
             rotateVal im c s pad (rotateOwidth im.width im.height c s)
               (rotateOheight im.width im.height c s) oy ox)))
        (image_u8_create (rotateOwidth im.width im.height c s)
          (rotateOheight im.width im.height c s)).buf := rfl

/-- The upward exponent search is exact on its fuel budget: if q lies in
    the binade [2^n, 2^(n+1)) it returns n. -/
theorem expo2Up_spec (fuel : Nat) (q : ℚ) (n : Nat)
    (h1 : 2 ^ n ≤ q) (h2 : q < 2 ^ (n + 1)) (hn : n ≤ fuel) :
    expo2Up fuel q = (n : Int) := by
  induction fuel generalizing q n with
  | zero =>
    have hn0 : n = 0 := by omega
    rw [expo2Up, hn0]
    rfl
  | succ f ih =>
    rw [expo2Up]
    by_cases hq2 : q < 2
    · rw [if_pos hq2]
      have hn0 : n = 0 := by
        by_contra hc
        have hn1 : 1 ≤ n := by omega
        have hp : (2 : ℚ) ≤ 2 ^ n := by
          calc (2 : ℚ) = 2 ^ 1 := by norm_num
            _ ≤ 2 ^ n := pow_le_pow_right (by norm_num) hn1
        linarith
      rw [hn0]
      rfl
    · rw [if_neg hq2]
      push_neg at hq2
      have hn1 : 1 ≤ n := by
        by_contra hc
        have hn0 : n = 0 := by omega
        rw [hn0] at h2
        norm_num at h2
        linarith
      have hb1 : (2 : ℚ) ^ (n - 1) ≤ q / 2 := by
        have hp : (2 : ℚ) ^ n = 2 ^ (n - 1) * 2 := by
          rw [← pow_succ]
          congr 1
          omega
        rw [hp] at h1
        exact (le_div_iff (by norm_num : (0:ℚ) < 2)).mpr h1
      have hb2 : q / 2 < 2 ^ ((n - 1) + 1) := by
        have he : (n - 1) + 1 = n := by omega
        rw [he]
        rw [pow_succ] at h2
        exact (div_lt_iff (by norm_num : (0:ℚ) < 2)).mpr h2
      have hrec := ih (q / 2) (n - 1) hb1 hb2 (by omega)
      rw [hrec]
      have hcast : ((n - 1 : Nat) : Int) = (n : Int) - 1 := by omega
      omega

/-- Evaluation form of binary32 rounding: for a nonzero value whose
    magnitude lies in the binade [2^n, 2^(n+1)) with n at most 64, the
    result is the ties-to-even rounding of the scaled significand, scaled
    back. -/
theorem roundB32_eval (q : ℚ) (n : Nat) (v : Int)
    (hq : q ≠ 0) (hn1 : 2 ^ n ≤ |q|) (hn2 : |q| < 2 ^ (n + 1)) (hn64 : n ≤ 64)
    (hv : rndNE (q * 2 ^ ((23 : Int) - (n : Int))) = v) :
    roundB32 q = (v : ℚ) * 2 ^ ((n : Int) - 23) := by
  have habs1 : (1 : ℚ) ≤ |q| := by
    calc (1 : ℚ) = 2 ^ (0 : Nat) := by norm_num
      _ ≤ 2 ^ n := pow_le_pow_right (by norm_num) (Nat.zero_le n)
      _ ≤ |q| := hn1
  have he : floatExp |q| = (n : Int) := by
    rw [floatExp, if_pos habs1]
    exact expo2Up_spec 64 |q| n hn1 hn2 hn64
  rw [roundB32, if_neg hq, he, hv]

/-- Ties-to-even at an exact half above an even integer rounds down. -/
theorem rndNE_tie_even (x : ℚ) (n : Int) (hx : x = (n : ℚ) + 1 / 2)
    (hev : n % 2 = 0) : rndNE x = n := by
  have hfl : ⌊x⌋ = n := by
    apply Int.floor_eq_iff.mpr
    constructor
    · rw [hx]; linarith
    · rw [hx]; push_cast; linarith
  rw [rndNE, hfl, hx]
  have hfrac : (n : ℚ) + 1 / 2 - n = 1 / 2 := by ring
  rw [hfrac, if_neg (by norm_num), if_neg (by norm_num), if_pos hev]

theorem roundB32_16777217 : roundB32 (16777217 : ℚ) = 16777216 := by
  have h := roundB32_eval (16777217 : ℚ) 24 8388608 (by norm_num)
    (by rw [abs_of_pos (by norm_num)]; norm_num)
    (by rw [abs_of_pos (by norm_num)]; norm_num)
    (by norm_num) ?_
  · rw [h]
    norm_num
  · have he : ((23 : Int) - (24 : Nat)) = -1 := by norm_num
    rw [he, zpow_neg_one]
    apply rndNE_tie_even _ 8388608
    · norm_num
    · norm_num

theorem roundB32_8388608half : roundB32 ((16777217 : ℚ) / 2) = 8388608 := by
  have h := roundB32_eval ((16777217 : ℚ) / 2) 23 8388608 (by norm_num)
    (by rw [abs_of_pos (by norm_num)]; norm_num)
    (by rw [abs_of_pos (by norm_num)]; norm_num)
    (by norm_num) ?_
  · rw [h]
    norm_num
  · have he : ((23 : Int) - (23 : Nat)) = 0 := by norm_num
    rw [he, zpow_zero, mul_one]
    apply rndNE_tie_even _ 8388608
    · norm_num
    · norm_num

theorem roundB32_8388608 : roundB32 (8388608 : ℚ) = 8388608 := by
  have h := roundB32_eval (8388608 : ℚ) 23 8388608 (by norm_num)
    (by rw [abs_of_pos (by norm_num)]; norm_num)
    (by rw [abs_of_pos (by norm_num)]; norm_num)
    (by norm_num) ?_
  · rw [h]
    norm_num
  · have he : ((23 : Int) - (23 : Nat)) = 0 := by norm_num
    rw [he, zpow_zero, mul_one]
    have hc : (8388608 : ℚ) = ((8388608 : Int) : ℚ) := by norm_num
    rw [hc, rndNE_intCast]

theorem roundB32_neg8388608 : roundB32 (-8388608 : ℚ) = -8388608 := by
  have h := roundB32_eval (-8388608 : ℚ) 23 (-8388608) (by norm_num)
    (by rw [abs_neg, abs_of_pos (by norm_num)]; norm_num)
    (by rw [abs_neg, abs_of_pos (by norm_num)]; norm_num)
    (by norm_num) ?_
  · rw [h]
    norm_num
  · have he : ((23 : Int) - (23 : Nat)) = 0 := by norm_num
    rw [he, zpow_zero, mul_one]
    have hc : (-8388608 : ℚ) = ((-8388608 : Int) : ℚ) := by norm_num
    rw [hc, rndNE_intCast]

theorem roundB32_16777216 : roundB32 (16777216 : ℚ) = 16777216 := by
  have h := roundB32_eval (16777216 : ℚ) 24 8388608 (by norm_num)
    (by rw [abs_of_pos (by norm_num)]; norm_num)
    (by rw [abs_of_pos (by norm_num)]; norm_num)
    (by norm_num) ?_
  · rw [h]
    norm_num
  · have he : ((23 : Int) - (24 : Nat)) = -1 := by norm_num
    rw [he, zpow_neg_one]
    have hc : (16777216 : ℚ) * 2⁻¹ = ((8388608 : Int) : ℚ) := by norm_num
    rw [hc, rndNE_intCast]

/-- Evaluation of the output width at source width 2^24 + 1: the float
    conversions round both (float)iwidth (to 2^24) and icx = iwidth/2.0
    (the tie 8388608.5 goes to the even 8388608), so the corner bounding
    box spans 2^24, one short of the source width. -/
theorem rotateOwidth_16777217 : rotateOwidth 16777217 1 1 0 = 16777216 := by
  rw [rotateOwidth, rotateXmax, rotateXmin, rotateCorners]
  simp only [rotateNx, fsub, fmul, List.foldl_cons, List.foldl_nil]
  push_cast
  rw [roundB32_16777217, roundB32_8388608half]
  simp only [mul_zero, roundB32_zero, sub_zero, mul_one]
  norm_num
  simp only [roundB32_neg8388608, roundB32_8388608]
  have hmax : ((-2139095040 : ℚ) ⊔ -8388608 ⊔ 8388608) = 8388608 := by
    norm_num [max_def]
  have hmin : ((2139095040 : ℚ) ⊓ -8388608 ⊓ 8388608) = -8388608 := by
    norm_num [min_def]
  rw [hmax, hmin]
  have hd : (8388608 : ℚ) - -8388608 = 16777216 := by norm_num
  rw [hd, roundB32_16777216]
  have hc : (16777216 : ℚ) = ((16777216 : Int) : ℚ) := by norm_num
  rw [hc, Int.ceil_intCast]
  rfl

/-- C9 counterexample: rotating a 16777217 x 1 buffer (width 2^24 + 1,
    within int32 range) by angle 0 produces an output whose width is
    16777216, not the source width: the float corner arithmetic of the
    bounding box loses the last unit.  The claimed exact dimension match
    fails on the code. -/
theorem rotate_claim_counterexample :
    (image_u8_rotate ⟨16777217, 1, 16777217, List.replicate 16777217 0⟩
      1 0 0).width = 16777216 ∧ (16777216 : Nat) ≠ 16777217 := by
  constructor
  · have hw : (image_u8_rotate ⟨16777217, 1, 16777217, List.replicate 16777217 0⟩
        1 0 0).width = rotateOwidth 16777217 1 1 0 := rfl
    rw [hw, rotateOwidth_16777217]
  · decide

theorem rotateNx_at10 (w h : Nat) (p : ℚ × ℚ)
    (h1 : roundB32 ((w : ℚ) / 2) = (w : ℚ) / 2)
    (h2 : roundB32 (p.1 - (w : ℚ) / 2) = p.1 - (w : ℚ) / 2) :
    rotateNx w h 1 0 p = p.1 - (w : ℚ) / 2 := by
  simp only [rotateNx, fsub, fmul]
  rw [h1, h2, mul_one, h2, mul_zero, roundB32_zero, sub_zero, h2]

theorem rotateNy_at10 (w h : Nat) (p : ℚ × ℚ)
    (h1 : roundB32 ((h : ℚ) / 2) = (h : ℚ) / 2)
    (h2 : roundB32 (p.2 - (h : ℚ) / 2) = p.2 - (h : ℚ) / 2) :
    rotateNy w h 1 0 p = p.2 - (h : ℚ) / 2 := by
  simp only [rotateNy, fadd, fmul, fsub]
  rw [h1, h2, mul_one, h2, mul_zero, roundB32_zero, zero_add, h2]

/-- In the float-exact regime (width below 2^23) every quantity in the
    angle-0 bounding box computation is a half-integer of magnitude below
    2^23, so no float operation rounds and the output width is exact. -/
theorem rotateOwidth_id (w h : Nat) (hw : w < 8388608) :
    rotateOwidth w h 1 0 = w := by
  have hW0 : (0 : ℚ) ≤ (w : ℚ) := Nat.cast_nonneg w
  have hWlt : (w : ℚ) < 8388608 := by exact_mod_cast hw
  have hhalf : roundB32 ((w : ℚ) / 2) = (w : ℚ) / 2 := by
    apply roundB32_eq_self _ (w : Int)
    · push_cast; ring
    · rw [abs_of_nonneg (by positivity)]
      norm_num
      linarith
  have hc0 : roundB32 ((0 : ℚ) - (w : ℚ) / 2) = (0 : ℚ) - (w : ℚ) / 2 := by
    apply roundB32_eq_self _ (-(w : Int))
    · push_cast; ring
    · rw [zero_sub, abs_neg, abs_of_nonneg (by positivity)]
      norm_num
      linarith
  have hcw : roundB32 ((w : ℚ) - (w : ℚ) / 2) = (w : ℚ) - (w : ℚ) / 2 := by
    apply roundB32_eq_self _ (w : Int)
    · push_cast; ring
    · have he : (w : ℚ) - (w : ℚ) / 2 = (w : ℚ) / 2 := by ring
      rw [he, abs_of_nonneg (by positivity)]
      norm_num
      linarith
  rw [rotateOwidth, rotateXmax, rotateXmin, rotateCorners]
  simp only [List.foldl_cons, List.foldl_nil]
  rw [roundB32_natCast w hw]
  rw [rotateNx_at10 w h (0, 0) hhalf hc0,
    rotateNx_at10 w h ((w : ℚ), 0) hhalf hcw,
    rotateNx_at10 w h ((w : ℚ), roundB32 (h : ℚ)) hhalf hcw,
    rotateNx_at10 w h (0, roundB32 (h : ℚ)) hhalf hc0]
  simp only
  have e1 : (0 : ℚ) - (w : ℚ) / 2 = -((w : ℚ) / 2) := by ring
  have e2 : (w : ℚ) - (w : ℚ) / 2 = (w : ℚ) / 2 := by ring
  rw [e1, e2]
  have m1 : min (2139095040 : ℚ) (-((w : ℚ) / 2)) = -((w : ℚ) / 2) :=
    min_eq_right (by linarith)
  have m2 : min (-((w : ℚ) / 2)) ((w : ℚ) / 2) = -((w : ℚ) / 2) :=
    min_eq_left (by linarith)
  have m3 : max (-2139095040 : ℚ) (-((w : ℚ) / 2)) = -((w : ℚ) / 2) :=
    max_eq_right (by linarith)
  have m4 : max (-((w : ℚ) / 2)) ((w : ℚ) / 2) = (w : ℚ) / 2 :=
    max_eq_right (by linarith)
  have m5 : max ((w : ℚ) / 2) (-((w : ℚ) / 2)) = (w : ℚ) / 2 :=
    max_eq_left (by linarith)
  rw [m1, m2, m2, min_self, m3, m4, max_self, m5]
  rw [fsub]
  have hd : (w : ℚ) / 2 - -((w : ℚ) / 2) = ((w : Nat) : ℚ) := by push_cast; ring
  rw [hd, roundB32_natCast w hw, Int.ceil_natCast, Int.toNat_natCast]

/-- Same exactness for the output height in the float-exact regime. -/
theorem rotateOheight_id (w h : Nat) (hh : h < 8388608) :
    rotateOheight w h 1 0 = h := by
  have hH0 : (0 : ℚ) ≤ (h : ℚ) := Nat.cast_nonneg h
  have hHlt : (h : ℚ) < 8388608 := by exact_mod_cast hh
  have hhalf : roundB32 ((h : ℚ) / 2) = (h : ℚ) / 2 := by
    apply roundB32_eq_self _ (h : Int)
    · push_cast; ring
    · rw [abs_of_nonneg (by positivity)]
      norm_num
      linarith
  have hc0 : roundB32 ((0 : ℚ) - (h : ℚ) / 2) = (0 : ℚ) - (h : ℚ) / 2 := by
    apply roundB32_eq_self _ (-(h : Int))
    · push_cast; ring
    · rw [zero_sub, abs_neg, abs_of_nonneg (by positivity)]
      norm_num
      linarith
  have hch : roundB32 ((h : ℚ) - (h : ℚ) / 2) = (h : ℚ) - (h : ℚ) / 2 := by
    apply roundB32_eq_self _ (h : Int)
    · push_cast; ring
    · have he : (h : ℚ) - (h : ℚ) / 2 = (h : ℚ) / 2 := by ring
      rw [he, abs_of_nonneg (by positivity)]
      norm_num
      linarith
  rw [rotateOheight, rotateYmax, rotateYmin, rotateCorners]
  simp only [List.foldl_cons, List.foldl_nil]
  rw [roundB32_natCast h hh]
  rw [rotateNy_at10 w h (0, 0) hhalf hc0,
    rotateNy_at10 w h (roundB32 (w : ℚ), 0) hhalf hc0,
    rotateNy_at10 w h (roundB32 (w : ℚ), (h : ℚ)) hhalf hch,
    rotateNy_at10 w h (0, (h : ℚ)) hhalf hch]
  simp only
  have e1 : (0 : ℚ) - (h : ℚ) / 2 = -((h : ℚ) / 2) := by ring
  have e2 : (h : ℚ) - (h : ℚ) / 2 = (h : ℚ) / 2 := by ring
  rw [e1, e2]
  have m1 : min (2139095040 : ℚ) (-((h : ℚ) / 2)) = -((h : ℚ) / 2) :=
    min_eq_right (by linarith)
  have m2 : min (-((h : ℚ) / 2)) ((h : ℚ) / 2) = -((h : ℚ) / 2) :=
    min_eq_left (by linarith)
  have m3 : max (-2139095040 : ℚ) (-((h : ℚ) / 2)) = -((h : ℚ) / 2) :=
    max_eq_right (by linarith)
  have m4 : max (-((h : ℚ) / 2)) ((h : ℚ) / 2) = (h : ℚ) / 2 :=
    max_eq_right (by linarith)
  rw [m1, min_self, m2, m2, m3, max_self, m4, max_self]
  rw [fsub]
  have hd : (h : ℚ) / 2 - -((h : ℚ) / 2) = ((h : Nat) : ℚ) := by push_cast; ring
  rw [hd, roundB32_natCast h hh, Int.ceil_natCast, Int.toNat_natCast]

/-- In the float-exact regime the angle-0 inverse mapping is exact: the
    pixel centre coordinates and their sums with the centre offsets are
    half-integers of magnitude below 2^23, every float operation returns
    its exact operand value, and the floor of ox + 1/2 recovers ox. -/
theorem rotateVal_id (im : image_u8) (pad oy ox : Nat)
    (hw : im.width < 8388608) (hh : im.height < 8388608)
    (hy : oy < im.height) (hx : ox < im.width) :
    rotateVal im 1 0 pad im.width im.height oy ox =
      im.buf.getD (oy * im.stride + ox) 0 := by
  have hWlt : (im.width : ℚ) < 8388608 := by exact_mod_cast hw
  have hHlt : (im.height : ℚ) < 8388608 := by exact_mod_cast hh
  have hxq : (ox : ℚ) + 1 ≤ (im.width : ℚ) := by exact_mod_cast hx
  have hyq : (oy : ℚ) + 1 ≤ (im.height : ℚ) := by exact_mod_cast hy
  have hx0 : (0 : ℚ) ≤ (ox : ℚ) := Nat.cast_nonneg ox
  have hy0 : (0 : ℚ) ≤ (oy : ℚ) := Nat.cast_nonneg oy
  have hicx : roundB32 ((im.width : ℚ) / 2) = (im.width : ℚ) / 2 := by
    apply roundB32_eq_self _ (im.width : Int)
    · push_cast; ring
    · rw [abs_of_nonneg (by positivity)]
      norm_num
      linarith
  have hicy : roundB32 ((im.height : ℚ) / 2) = (im.height : ℚ) / 2 := by
    apply roundB32_eq_self _ (im.height : Int)
    · push_cast; ring
    · rw [abs_of_nonneg (by positivity)]
      norm_num
      linarith
  have hsx : roundB32 ((ox : ℚ) - (im.width : ℚ) / 2 + 1 / 2)
      = (ox : ℚ) - (im.width : ℚ) / 2 + 1 / 2 := by
    apply roundB32_eq_self _ (2 * (ox : Int) - (im.width : Int) + 1)
    · push_cast; ring
    · rw [abs_lt]
      constructor
      · norm_num; linarith
      · norm_num; linarith
  have hsy : roundB32 ((oy : ℚ) - (im.height : ℚ) / 2 + 1 / 2)
      = (oy : ℚ) - (im.height : ℚ) / 2 + 1 / 2 := by
    apply roundB32_eq_self _ (2 * (oy : Int) - (im.height : Int) + 1)
    · push_cast; ring
    · rw [abs_lt]
      constructor
      · norm_num; linarith
      · norm_num; linarith
  have hox : roundB32 ((ox : ℚ) + 1 / 2) = (ox : ℚ) + 1 / 2 := by
    apply roundB32_eq_self _ (2 * (ox : Int) + 1)
    · push_cast; ring
    · rw [abs_of_nonneg (by positivity)]
      norm_num
      linarith
  have hoy : roundB32 ((oy : ℚ) + 1 / 2) = (oy : ℚ) + 1 / 2 := by
    apply roundB32_eq_self _ (2 * (oy : Int) + 1)
    · push_cast; ring
    · rw [abs_of_nonneg (by positivity)]
      norm_num
      linarith
  simp only [rotateVal, fadd, fmul]
  rw [hicx, hicy]
  simp only [mul_one, mul_zero, roundB32_zero, add_zero, zero_add, hsx, hsy]
  have ep1 : (ox : ℚ) - (im.width : ℚ) / 2 + 1 / 2 + (im.width : ℚ) / 2
      = (ox : ℚ) + 1 / 2 := by ring
  have ep2 : (oy : ℚ) - (im.height : ℚ) / 2 + 1 / 2 + (im.height : ℚ) / 2
      = (oy : ℚ) + 1 / 2 := by ring
  rw [ep1, ep2, hox, hoy]
  have hix : ⌊(ox : ℚ) + 1 / 2⌋ = (ox : Int) := by
    apply Int.floor_eq_iff.mpr
    constructor
    · push_cast; linarith
    · push_cast; linarith
  have hiy : ⌊(oy : ℚ) + 1 / 2⌋ = (oy : Int) := by
    apply Int.floor_eq_iff.mpr
    constructor
    · push_cast; linarith
    · push_cast; linarith
  rw [hix, hiy]
  rw [if_pos ⟨Int.natCast_nonneg ox, Int.natCast_nonneg oy,
    by exact_mod_cast hx, by exact_mod_cast hy⟩]
  rw [Int.toNat_natCast, Int.toNat_natCast]

/-- C9 amended: in the float-exact regime, i.e. for width and height
    below 2^23 = 8388608 (where every quantity of the angle-0 pipeline
    is a binary32-representable half-integer and no float operation
    rounds), rotating by angle 0 (direction cosines 1 and 0, exactly what
    the library cos and sin return there) yields a buffer of exactly the
    source dimensions whose pixels match the source pixel for pixel.
    Beyond that regime float rounding breaks the claim, as the
    counterexample at width 2^24 + 1 shows. -/
theorem rotate_zero_spec (im : image_u8) (pad : Nat)
    (hw : im.width < 8388608) (hh : im.height < 8388608) :
    (image_u8_rotate im 1 0 pad).width = im.width ∧
    (image_u8_rotate im 1 0 pad).height = im.height ∧
    ∀ oy < im.height, ∀ ox < im.width,
      (image_u8_rotate im 1 0 pad).buf.getD
        (oy * (image_u8_rotate im 1 0 pad).stride + ox) 0 =
        im.buf.getD (oy * im.stride + ox) 0 := by
  have how := rotateOwidth_id im.width im.height hw
  have hoh := rotateOheight_id im.width im.height hh
  have hwidth : (image_u8_rotate im 1 0 pad).width
      = rotateOwidth im.width im.height 1 0 := rfl
  have hheight : (image_u8_rotate im 1 0 pad).height
      = rotateOheight im.width im.height 1 0 := rfl
  have hstride : (image_u8_rotate im 1 0 pad).stride
      = alignedStride (rotateOwidth im.width im.height 1 0) 96 := rfl
  refine ⟨hwidth.trans how, hheight.trans hoh, ?_⟩
  intro oy hy ox hx
  rw [hstride, how, rotate_buf, how, hoh]
  have hxds : ox < alignedStride im.width 96 :=
    Nat.lt_of_lt_of_le hx (alignedStride_ge _ _)
  have hlen : oy * alignedStride im.width 96 + ox
      < (image_u8_create im.width im.height).buf.length := by
    rw [create_buf_len]
    exact rowcol_lt hy hxds
  exact (getD_setWrites_grid im.height im.width _
    (rotateVal im 1 0 pad im.width im.height) _
    (alignedStride_ge _ _) oy ox hy hx hlen).trans
    (rotateVal_id im pad oy ox hw hh hy hx)

/-- Witness for rotate_zero_spec on a concrete 2 by 1 buffer with bytes 3
    and 8: the rotated output has the same dimensions and the same bytes. -/
theorem rotate_zero_spec_witness :
    (image_u8_rotate ⟨2, 1, 2, [3, 8]⟩ 1 0 5).width = 2 ∧
    (image_u8_rotate ⟨2, 1, 2, [3, 8]⟩ 1 0 5).buf.getD
      (0 * (image_u8_rotate ⟨2, 1, 2, [3, 8]⟩ 1 0 5).stride + 1) 0 = 8 := by
  have h := rotate_zero_spec ⟨2, 1, 2, [3, 8]⟩ 5 (by decide) (by decide)
  refine ⟨h.1, ?_⟩
  have h2 := h.2.2 0 (by decide) 1 (by decide)
  rw [h2]
  decide
